import Mathlib

/-!
# go-jwt-cracker: a shallow embedding of `main.go`

Go strings and byte slices are lists of byte values (`List Nat`, each entry below 256 for
a well-formed input).  A channel hand-off `dest <- key` by the single generator goroutine is
recorded as the list of keys sent, in order.  Go `int` values are mathematical integers: the loop
counter of `generate` stays below `maxLength + 1`, so it cannot wrap for `maxLength < 2^63 - 1`.
Library routines (`strings.Split`, `strings.Join`, `encoding/base64`, `crypto/sha256`,
`crypto/hmac`, the range loop over a string) are embedded from their documented behaviour.

The goroutines of `main` (the dispatch loop, the generator, the verification tasks, their
counter goroutines and the progress goroutine) are a step function `step` on a `State`, one step
per statement, driven by a scheduling choice `Action`; a send and a receive on an unbuffered
channel happen together in one step.  A state is `Reachable` when some schedule leads to it from
`init`.  The program ends when `main` returns or when a goroutine panics.  In `fmt.Printf` the
read of `numberOfTestedKeys` by `main` is one step of its own.
-/

namespace JwtCracker

/-! ## Ranging over a string -/

/-- Continuation byte test of the UTF-8 decoder: `locb <= b && b <= hicb`. -/
def isCont (b : Nat) : Bool := 0x80 ≤ b && b ≤ 0xBF

/-- Width in bytes of the rune decoded at the head of `s` by a Go `for ... range` loop over
a string: an ASCII byte has width 1, a well-formed multi-byte sequence has width 2, 3 or 4, and any
ill-formed sequence (bad continuation, overlong form, surrogate, out of range) has width 1. -/
def runeWidth : List Nat → Nat
  | [] => 1
  | b0 :: rest =>
    if b0 < 0x80 then 1
    else if 0xC0 ≤ b0 ∧ b0 < 0xE0 then
      match rest with
      | b1 :: _ =>
        if isCont b1 ∧ 0x7F < (((b0 &&& 0x1F) <<< 6) ||| (b1 &&& 0x3F)) then 2 else 1
      | _ => 1
    else if 0xE0 ≤ b0 ∧ b0 < 0xF0 then
      match rest with
      | b1 :: b2 :: _ =>
        let r := ((b0 &&& 0x0F) <<< 12) ||| ((b1 &&& 0x3F) <<< 6) ||| (b2 &&& 0x3F)
        if isCont b1 ∧ isCont b2 ∧ 0x7FF < r ∧ ¬ (0xD800 ≤ r ∧ r ≤ 0xDFFF) then 3 else 1
      | _ => 1
    else if 0xF0 ≤ b0 ∧ b0 < 0xF8 then
      match rest with
      | b1 :: b2 :: b3 :: _ =>
        let r := ((b0 &&& 0x07) <<< 18) ||| ((b1 &&& 0x3F) <<< 12) ||| ((b2 &&& 0x3F) <<< 6)
          ||| (b3 &&& 0x3F)
        if isCont b1 ∧ isCont b2 ∧ isCont b3 ∧ 0xFFFF < r ∧ r ≤ 0x10FFFF then 4 else 1
      | _ => 1
    else 1

/-- Byte offsets visited by `for index := range s`, scanning the suffix `s` that starts at
offset `pos`; `skip` counts the bytes of the current rune that are still to be passed over. -/
def rangeIndicesFrom : List Nat → Nat → Nat → List Nat
  | [], _, _ => []
  | b :: rest, pos, 0 => pos :: rangeIndicesFrom rest (pos + 1) (runeWidth (b :: rest) - 1)
  | _ :: rest, pos, k + 1 => rangeIndicesFrom rest (pos + 1) k

/-- The values of `index` in `for index := range alphabet`: the offset of each rune start. -/
def rangeIndices (s : List Nat) : List Nat := rangeIndicesFrom s 0 0

/-! ## The key generator -/

/-- The call `doGenerate(alphabet, base, length, dest)` of `main.go`.

The slice `base` is `arr[0:n]`, where `arr` is the backing array allocated by `generate`
(capacity `length`), and `d` is `length - len(base)`, the number of bytes still to append, so the
test `len(base) == length` is `d = 0`.  In that case the key is a copy of `base` and is sent to
`dest`.  Otherwise, for each `index` of the range loop, `append(base, alphabet[index])` has spare
capacity and therefore writes `alphabet[index]` into `arr[n]` in place, and the recursive call
runs on `arr[0:n+1]`.  The result is the list of keys sent, in order, and the backing array as the
call leaves it. -/
def doGenerate (alphabet : List Nat) : Nat → List Nat → Nat → List (List Nat) × List Nat
  | 0, arr, n => ([arr.take n], arr)
  | d + 1, arr, n =>
    (rangeIndices alphabet).foldl
      (fun st index =>
        let r := doGenerate alphabet d (st.2.set n (alphabet.getD index 0)) (n + 1)
        (st.1 ++ r.1, r.2))
      ([], arr)

/-- The call `generate(alphabet, maxLength, dest)`: for `length` from 1 to `maxLength`, run
`doGenerate` on the empty slice of a fresh zeroed array of capacity `length`.  The result is the
list of keys sent to `dest`, in order. -/
def generate (alphabet : List Nat) (maxLength : Int) : List (List Nat) :=
  (List.range maxLength.toNat).flatMap fun i =>
    (doGenerate alphabet (i + 1) (List.replicate (i + 1) 0) 0).1

/-- The bytes `alphabet[index]` that the range loop of `doGenerate` appends, in loop order. -/
def symbols (alphabet : List Nat) : List Nat :=
  (rangeIndices alphabet).map fun index => alphabet.getD index 0

/-- All sequences of length `d` over `syms`, the first position varying slowest (reference
enumeration used to describe the output of `doGenerate`). -/
def words (syms : List Nat) : Nat → List (List Nat)
  | 0 => [[]]
  | d + 1 => syms.flatMap fun a => (words syms d).map (a :: ·)

/-- Emission order of the specification: shorter keys first, and keys of equal length in
lexicographic order of the alphabet indices of their bytes. -/
def keyOrder (alphabet : List Nat) (u v : List Nat) : Prop :=
  u.length < v.length ∨
    (u.length = v.length ∧
      List.Lex (fun a b => alphabet.indexOf a < alphabet.indexOf b) u v)

/-! ## SHA-256 and HMAC (`crypto/sha256`, `crypto/hmac`) -/

/-- Rotate a 32-bit word right by `n` bits. -/
def rotr (x n : Nat) : Nat := ((x >>> n) ||| (x <<< (32 - n))) % 2 ^ 32

/-- Round constants of SHA-256. -/
def sha256K : List Nat := [
  0x428a2f98, 0x71374491, 0xb5c0fbcf, 0xe9b5dba5, 0x3956c25b, 0x59f111f1, 0x923f82a4, 0xab1c5ed5,
  0xd807aa98, 0x12835b01, 0x243185be, 0x550c7dc3, 0x72be5d74, 0x80deb1fe, 0x9bdc06a7, 0xc19bf174,
  0xe49b69c1, 0xefbe4786, 0x0fc19dc6, 0x240ca1cc, 0x2de92c6f, 0x4a7484aa, 0x5cb0a9dc, 0x76f988da,
  0x983e5152, 0xa831c66d, 0xb00327c8, 0xbf597fc7, 0xc6e00bf3, 0xd5a79147, 0x06ca6351, 0x14292967,
  0x27b70a85, 0x2e1b2138, 0x4d2c6dfc, 0x53380d13, 0x650a7354, 0x766a0abb, 0x81c2c92e, 0x92722c85,
  0xa2bfe8a1, 0xa81a664b, 0xc24b8b70, 0xc76c51a3, 0xd192e819, 0xd6990624, 0xf40e3585, 0x106aa070,
  0x19a4c116, 0x1e376c08, 0x2748774c, 0x34b0bcb5, 0x391c0cb3, 0x4ed8aa4a, 0x5b9cca4f, 0x682e6ff3,
  0x748f82ee, 0x78a5636f, 0x84c87814, 0x8cc70208, 0x90befffa, 0xa4506ceb, 0xbef9a3f7, 0xc67178f2]

/-- Initial hash value of SHA-256. -/
def sha256Init : List Nat := [
  0x6a09e667, 0xbb67ae85, 0x3c6ef372, 0xa54ff53a, 0x510e527f, 0x9b05688c, 0x1f83d9ab, 0x5be0cd19]

/-- The `n` low-order bytes of `x`, most significant first. -/
def beBytes : Nat → Nat → List Nat
  | 0, _ => []
  | n + 1, x => (x >>> (8 * n)) % 256 :: beBytes n x

/-- The 32-bit word with big-endian bytes `b0 b1 b2 b3`. -/
def beWord (b0 b1 b2 b3 : Nat) : Nat :=
  ((b0 % 256) <<< 24) ||| ((b1 % 256) <<< 16) ||| ((b2 % 256) <<< 8) ||| (b3 % 256)

/-- SHA-256 padding: a `0x80` byte, zero bytes up to 56 modulo 64, and the bit length of the
message as a 64-bit big-endian integer. -/
def sha256Pad (msg : List Nat) : List Nat :=
  msg ++ [0x80] ++ List.replicate ((55 + 64 - msg.length % 64) % 64) 0
    ++ beBytes 8 ((8 * msg.length) % 2 ^ 64)

/-- The sixteen big-endian words of a 64-byte block. -/
def blockWords (block : List Nat) : List Nat :=
  (List.range 16).map fun i =>
    beWord (block.getD (4 * i) 0) (block.getD (4 * i + 1) 0) (block.getD (4 * i + 2) 0)
      (block.getD (4 * i + 3) 0)

/-- The 64-word message schedule of a block. -/
def schedule (block : List Nat) : List Nat :=
  (List.range 48).foldl
    (fun w j =>
      let i := j + 16
      let v1 := w.getD (i - 2) 0
      let t1 := rotr v1 17 ^^^ rotr v1 19 ^^^ (v1 >>> 10)
      let v2 := w.getD (i - 15) 0
      let t2 := rotr v2 7 ^^^ rotr v2 18 ^^^ (v2 >>> 3)
      w ++ [(t1 + w.getD (i - 7) 0 + t2 + w.getD (i - 16) 0) % 2 ^ 32])
    (blockWords block)

/-- One round of the SHA-256 compression function on the working variables `a .. h`, with
round constant `kw.1` and schedule word `kw.2`. -/
def sha256Round (st : List Nat) (kw : Nat × Nat) : List Nat :=
  match st with
  | [a, b, c, d, e, f, g, h] =>
    let t1 := (h + (rotr e 6 ^^^ rotr e 11 ^^^ rotr e 25)
      + ((e &&& f) ^^^ ((e ^^^ 0xffffffff) &&& g)) + kw.1 + kw.2) % 2 ^ 32
    let t2 := ((rotr a 2 ^^^ rotr a 13 ^^^ rotr a 22)
      + ((a &&& b) ^^^ (a &&& c) ^^^ (b &&& c))) % 2 ^ 32
    [(t1 + t2) % 2 ^ 32, a, b, c, (d + t1) % 2 ^ 32, e, f, g]
  | _ => st

/-- The compression function: 64 rounds, then the feed-forward addition. -/
def sha256Block (hs : List Nat) (block : List Nat) : List Nat :=
  List.zipWith (fun x y => (x + y) % 2 ^ 32) hs
    ((List.zip sha256K (schedule block)).foldl sha256Round hs)

/-- Compress the first `n` 64-byte blocks of `p` into the state `hs`. -/
def sha256Blocks : Nat → List Nat → List Nat → List Nat
  | 0, hs, _ => hs
  | n + 1, hs, p => sha256Blocks n (sha256Block hs (p.take 64)) (p.drop 64)

/-- The SHA-256 digest of `msg` (`sha256.New`, `Write`, `Sum`). -/
def sha256 (msg : List Nat) : List Nat :=
  let p := sha256Pad msg
  (sha256Blocks (p.length / 64) sha256Init p).flatMap (beBytes 4)

/-- The 64-byte key block of `hmac.New(sha256.New, key)`: a key longer than the block size is
replaced by its digest, and the key is then padded with zero bytes. -/
def hmacKeyBlock (key : List Nat) : List Nat :=
  let k := if 64 < key.length then sha256 key else key
  k ++ List.replicate (64 - k.length) 0

/-- The tag `mac.Sum(nil)` after `mac := hmac.New(sha256.New, key)` and `mac.Write(msg)`. -/
def hmacSHA256 (key msg : List Nat) : List Nat :=
  let kb := hmacKeyBlock key
  let ipad := kb.map (· ^^^ 0x36)
  let opad := kb.map (· ^^^ 0x5c)
  sha256 (opad ++ sha256 (ipad ++ msg))

/-- The function `subtle.ConstantTimeCompare`: 1 when the slices have equal length and the OR
of the XORs of their bytes is zero, else 0. -/
def ConstantTimeCompare (x y : List Nat) : Nat :=
  if x.length ≠ y.length then 0
  else
    let v := (List.zip x y).foldl (fun v p => v ||| (p.1 ^^^ p.2)) 0
    if v = 0 then 1 else 0

/-- The function `hmac.Equal`. -/
def hmacEqual (mac1 mac2 : List Nat) : Bool := ConstantTimeCompare mac1 mac2 == 1

/-! ## Unpadded base64url (`base64.RawURLEncoding`) -/

/-- The URL-safe alphabet `A-Z a-z 0-9 - _`. -/
def encodeURL : List Nat :=
  [65, 66, 67, 68, 69, 70, 71, 72, 73, 74, 75, 76, 77, 78, 79, 80, 81, 82, 83, 84, 85, 86, 87, 88,
   89, 90, 97, 98, 99, 100, 101, 102, 103, 104, 105, 106, 107, 108, 109, 110, 111, 112, 113, 114,
   115, 116, 117, 118, 119, 120, 121, 122, 48, 49, 50, 51, 52, 53, 54, 55, 56, 57, 45, 95]

/-- The decode map of the encoding: the 6-bit value of an alphabet byte, `0xff` otherwise. -/
def decodeMap (c : Nat) : Nat :=
  if c ∈ encodeURL then encodeURL.indexOf c else 0xff

/-- Errors returned by `JWTFromString`: the `fmt.Errorf` of a wrong segment count, and the
`base64.CorruptInputError` with its byte offset. -/
inductive ParseError where
  | wrongParts (n : Nat)
  | corruptInput (offset : Nat)
  deriving DecidableEq, Repr

/-- The three bytes assembled from four 6-bit values by `decodeQuantum`. -/
def quantumBytes (d0 d1 d2 d3 : Nat) : List Nat :=
  let val := (d0 <<< 18) ||| (d1 <<< 12) ||| (d2 <<< 6) ||| d3
  [(val >>> 16) % 256, (val >>> 8) % 256, (val >>> 0) % 256]

/-- The loop of `Encoding.Decode` over `decodeQuantum` for `RawURLEncoding` (no padding
character, not strict), reading the rest of the input from offset `si` with the 6-bit values
`dbuf` of the current quantum already collected.  Alphabet bytes are collected four at a time,
`\r` and `\n` are skipped, any other byte is a `CorruptInputError` at its offset; at the end of
the input a quantum of 2 or 3 values yields 1 or 2 bytes, and a quantum of 1 value is a
`CorruptInputError(si - 1)`. -/
def decode : List Nat → Nat → List Nat → Except ParseError (List Nat)
  | [], si, dbuf =>
    match dbuf with
    | [] => .ok []
    | [_] => .error (.corruptInput (si - 1))
    | [d0, d1] => .ok ((quantumBytes d0 d1 0 0).take 1)
    | [d0, d1, d2] => .ok ((quantumBytes d0 d1 d2 0).take 2)
    | _ => .ok []
  | c :: rest, si, dbuf =>
    if decodeMap c ≠ 0xff then
      match dbuf with
      | [d0, d1, d2] =>
        (decode rest (si + 1) []).map (quantumBytes d0 d1 d2 (decodeMap c) ++ ·)
      | _ => decode rest (si + 1) (dbuf ++ [decodeMap c])
    else if c = 10 ∨ c = 13 then decode rest (si + 1) dbuf
    else .error (.corruptInput si)

/-- The call `base64.RawURLEncoding.DecodeString(s)`; on an error only the error is kept. -/
def DecodeString (s : List Nat) : Except ParseError (List Nat) := decode s 0 []

/-- The call `base64.RawURLEncoding.EncodeToString(src)`: three bytes give four alphabet
bytes, a final group of two bytes gives three and of one byte gives two, without padding. -/
def EncodeToString : List Nat → List Nat
  | a :: b :: c :: rest =>
    let val := (a <<< 16) ||| (b <<< 8) ||| c
    encodeURL.getD ((val >>> 18) &&& 0x3F) 0 :: encodeURL.getD ((val >>> 12) &&& 0x3F) 0 ::
      encodeURL.getD ((val >>> 6) &&& 0x3F) 0 :: encodeURL.getD (val &&& 0x3F) 0 ::
      EncodeToString rest
  | [a, b] =>
    let val := (a <<< 16) ||| (b <<< 8)
    [encodeURL.getD ((val >>> 18) &&& 0x3F) 0, encodeURL.getD ((val >>> 12) &&& 0x3F) 0,
      encodeURL.getD ((val >>> 6) &&& 0x3F) 0]
  | [a] =>
    let val := a <<< 16
    [encodeURL.getD ((val >>> 18) &&& 0x3F) 0, encodeURL.getD ((val >>> 12) &&& 0x3F) 0]
  | [] => []

/-! ## Tokens -/

/-- The call `strings.Split(s, sep)` for a one-byte separator: the pieces of `s` between
consecutive occurrences of `sep`; there is always one piece more than there are separators. -/
def stringsSplit (sep : Nat) : List Nat → List (List Nat)
  | [] => [[]]
  | c :: rest =>
    if c = sep then [] :: stringsSplit sep rest
    else
      match stringsSplit sep rest with
      | p :: ps => (c :: p) :: ps
      | [] => [[c]]

/-- The call `strings.Join(elems, sep)`. -/
def stringsJoin (sep : List Nat) : List (List Nat) → List Nat
  | [] => []
  | [e] => e
  | e :: es => e ++ sep ++ stringsJoin sep es

/-- The struct `JWT` of `main.go`. -/
structure JWT where
  b64Header : List Nat
  b64Payload : List Nat
  b64Signature : List Nat
  signedContent : List Nat
  signature : List Nat
  deriving DecidableEq, Repr

/-- The function `JWTFromString` of `main.go`; the byte 46 is `.`. -/
def JWTFromString (s : List Nat) : Except ParseError JWT :=
  let parts := stringsSplit 46 s
  if parts.length ≠ 3 then .error (.wrongParts parts.length)
  else
    let signedContent := stringsJoin [46] (parts.take 2)
    match DecodeString (parts.getD 2 []) with
    | .error err => .error err
    | .ok signature =>
      .ok { b64Header := parts.getD 0 [], b64Payload := parts.getD 1 [],
            b64Signature := parts.getD 2 [], signedContent := signedContent,
            signature := signature }

/-- The method `(*JWT).isSignedWithKey` of `main.go`; `mac.Write` never returns an error, so
the `panic` branch is not taken. -/
def JWT.isSignedWithKey (jwt : JWT) (key : List Nat) : Bool :=
  hmacEqual (hmacSHA256 key jwt.signedContent) jwt.signature

/-- The token literal passed to `JWTFromString` in `main`. -/
def mainToken : List Nat :=
  [101, 121, 74, 104, 98, 71, 99, 105, 79, 105, 74, 73, 85, 122, 73, 49, 78, 105, 73, 115, 73,
   110, 82, 53, 99, 67, 73, 54, 73, 107, 112, 88, 86, 67, 74, 57, 46, 101, 121, 74, 122, 100, 87,
   73, 105, 79, 105, 73, 120, 77, 106, 77, 48, 78, 84, 89, 51, 79, 68, 107, 119, 73, 105, 119,
   105, 98, 109, 70, 116, 90, 83, 73, 54, 73, 107, 112, 118, 97, 71, 52, 103, 82, 71, 57, 108,
   73, 105, 119, 105, 89, 87, 82, 116, 97, 87, 52, 105, 79, 110, 82, 121, 100, 87, 86, 57, 46,
   99, 65, 79, 73, 65, 105, 102, 117, 51, 102, 121, 107, 118, 104, 107, 72, 112, 98, 117, 104,
   98, 118, 116, 72, 56, 48, 55, 45, 90, 50, 114, 73, 49, 70, 83, 51, 118, 88, 49, 88, 77, 106,
   69]

/-- The value of `jwt` that `main` goes on with after `JWTFromString` (it panics on an
error, in which case no token is used). -/
def mainJWT : JWT :=
  match JWTFromString mainToken with
  | .ok jwt => jwt
  | .error _ => ⟨[], [], [], [], []⟩

/-! ## The odometer of the specification -/

/-- Odometer enumeration of the specification: the `i`-th key of length `L` of a base-`A`
counter over the alphabet (`A` its size) holds at position `j` the byte
`alphabet[(i / A^(L-1-j)) mod A]`. -/
def odometer (alphabet : List Nat) (L i : Nat) : List Nat :=
  (List.range L).map fun j =>
    alphabet.getD ((i / alphabet.length ^ (L - 1 - j)) % alphabet.length) 0

/-- The number `sum over j of d_j * A^(L-1-j)` denoted by the digit indices `d_0 .. d_{L-1}`. -/
def digitsValue (A : Nat) (d : List Nat) : Nat :=
  ((List.range d.length).map fun j => d.getD j 0 * A ^ (d.length - 1 - j)).sum

/-! ## The search in `main` -/

/-- Configuration of a run of `main`: the constants `alphabet` and `maxLength`, the parsed
token `jwt`, and the value of `runtime.NumCPU()`. -/
structure Config where
  alphabet : List Nat
  maxLength : Int
  jwt : JWT
  numCPU : Nat

/-- Where the main goroutine stands: blocked in the `select` of `MAINLOOP`; in the case
`key := <-keys` at `done <- struct{}{}` (`acquire`) or at `wg.Add(1)` and the `go` statement
(`spawn`); in the case `key := <-result` at `fmt.Printf` (`report`), at `close(keys)` or at
`close(done)`; after the loop at `wg.Wait()`; or returned, which ends the program. -/
inductive MainPc where
  | select
  | acquire (key : List Nat)
  | spawn (key : List Nat)
  | report (key : List Nat)
  | closeKeys
  | closeDone
  | wait
  | exited
  deriving DecidableEq, Repr

/-- Where a verification goroutine stands: at the call of `isSignedWithKey`; blocked at
`result <- string(key)`; at the `go` statement of the counter update; at `<-done`; at the
deferred `wg.Done()`; or returned. -/
inductive TaskPc where
  | verify
  | sendResult
  | spawnInc
  | release
  | wgDone
  | finished
  deriving DecidableEq, Repr

/-- Where the counter goroutine started by a verification goroutine stands: not started yet;
at `lock.Lock()`; holding the lock at `numberOfTestedKeys++`; at the deferred `lock.Unlock()`;
or returned. -/
inductive IncPc where
  | notSpawned
  | lock
  | increment
  | unlock
  | finished
  deriving DecidableEq, Repr

/-- One goroutine `go func(key []byte)` of `main`, with the counter goroutine it starts. -/
structure Task where
  key : List Nat
  pc : TaskPc
  inc : IncPc
  deriving DecidableEq, Repr

/-- Who holds the mutex `lock`: the progress goroutine or the counter goroutine of task `i`. -/
inductive Holder where
  | ticker
  | incrementer (i : Nat)
  deriving DecidableEq, Repr

/-- State of the program while `main` runs its loop. `pending` are the keys the generator has
still to send on `keys` (it is sending the first one); `slots` is the number of elements
buffered in `done`; `tasks` are the verification goroutines in the order they were started;
`output` is the line `Key is "%s" (tested %d keys)` once printed; `progress` are the progress
lines printed (count and difference to the previous count); `crashed` records a panic, which
ends the program. -/
structure State where
  pending : List (List Nat)
  keysClosed : Bool
  doneClosed : Bool
  slots : Nat
  wg : Nat
  tasks : List Task
  mainPc : MainPc
  lock : Option Holder
  numberOfTestedKeys : Nat
  previousNumberOfTestedKeys : Nat
  tickerLocked : Bool
  output : Option (List Nat × Nat)
  progress : List (Nat × Nat)
  crashed : Bool
  deriving DecidableEq, Repr

/-- One scheduling choice: the `select` case `key := <-keys` together with the send of the
generator; the `select` case `key := <-result` together with the send of task `i`; the next
statement of `main` outside the `select`; the send of the generator on the closed channel; the
next statement of task `i`; of its counter goroutine; of the progress goroutine. -/
inductive Action where
  | recvKey
  | recvResult (i : Nat)
  | main
  | generator
  | task (i : Nat)
  | incrementer (i : Nat)
  | ticker
  deriving DecidableEq, Repr

/-- State of the program when `main` enters `MAINLOOP`, with `keys` the whole sequence the
generator goroutine has to send: the channels are open and empty, no task is started. -/
def initWith (keys : List (List Nat)) : State :=
  { pending := keys, keysClosed := false, doneClosed := false,
    slots := 0, wg := 0, tasks := [], mainPc := .select, lock := none,
    numberOfTestedKeys := 0, previousNumberOfTestedKeys := 0, tickerLocked := false,
    output := none, progress := [], crashed := false }

/-- The statements of `main` outside the `select`; `capacity` is the capacity of `done`. A
send on `done` blocks while the buffer is full, and `wg.Wait()` blocks while the counter is not
zero. -/
def stepMain (capacity : Nat) (s : State) : Option State :=
  match s.mainPc with
  | .acquire key =>
    if s.slots < capacity then some { s with slots := s.slots + 1, mainPc := .spawn key }
    else none
  | .spawn key =>
    some { s with wg := s.wg + 1, tasks := s.tasks ++ [⟨key, .verify, .notSpawned⟩],
                  mainPc := .select }
  | .report key =>
    some { s with output := some (key, s.numberOfTestedKeys), mainPc := .closeKeys }
  | .closeKeys => some { s with keysClosed := true, mainPc := .closeDone }
  | .closeDone => some { s with doneClosed := true, mainPc := .wait }
  | .wait => if s.wg = 0 then some { s with mainPc := .exited } else none
  | .select => none
  | .exited => none

/-- The statements of the verification goroutine `t`, which is task `i`; `verify` is
`jwt.isSignedWithKey`. The send on `result` is not among them: it happens together with the
receive of `main`. A receive from `done` takes a buffered element, or returns at once when
`done` is closed and empty, and blocks otherwise. A `wg.Done()` on a zero counter panics. -/
def stepTask (verify : List Nat → Bool) (s : State) (i : Nat) (t : Task) : Option State :=
  match t.pc with
  | .verify =>
    if verify t.key then some { s with tasks := s.tasks.set i { t with pc := .sendResult } }
    else some { s with tasks := s.tasks.set i { t with pc := .spawnInc } }
  | .sendResult => none
  | .spawnInc => some { s with tasks := s.tasks.set i { t with pc := .release, inc := .lock } }
  | .release =>
    if 0 < s.slots then
      some { s with slots := s.slots - 1, tasks := s.tasks.set i { t with pc := .wgDone } }
    else if s.doneClosed then some { s with tasks := s.tasks.set i { t with pc := .wgDone } }
    else none
  | .wgDone =>
    if 0 < s.wg then
      some { s with wg := s.wg - 1, tasks := s.tasks.set i { t with pc := .finished } }
    else some { s with crashed := true }
  | .finished => none

/-- The statements of the counter goroutine of task `i`. -/
def stepInc (s : State) (i : Nat) (t : Task) : Option State :=
  match t.inc with
  | .lock =>
    if s.lock = none then
      some { s with lock := some (.incrementer i),
                    tasks := s.tasks.set i { t with inc := .increment } }
    else none
  | .increment =>
    some { s with numberOfTestedKeys := s.numberOfTestedKeys + 1,
                  tasks := s.tasks.set i { t with inc := .unlock } }
  | .unlock => some { s with lock := none, tasks := s.tasks.set i { t with inc := .finished } }
  | .notSpawned => none
  | .finished => none

/-- The progress goroutine: on a tick it takes the lock, then prints the count and the
difference to the previous count, stores the count and releases the lock. -/
def stepTicker (s : State) : Option State :=
  if s.tickerLocked then
    some { s with
      progress := s.progress ++ [(s.numberOfTestedKeys,
        s.numberOfTestedKeys - s.previousNumberOfTestedKeys)],
      previousNumberOfTestedKeys := s.numberOfTestedKeys, lock := none, tickerLocked := false }
  else if s.lock = none then some { s with lock := some .ticker, tickerLocked := true }
  else none

/-- One step of the program under the scheduling choice `a`, or `none` when that choice is
not enabled; `verify` is `jwt.isSignedWithKey` and `capacity` the capacity of `done`. Nothing
runs after a panic or after `main` has returned. A send on the closed channel `keys` panics. -/
def stepWith (verify : List Nat → Bool) (capacity : Nat) (s : State) (a : Action) :
    Option State :=
  if s.crashed ∨ s.mainPc = .exited then none
  else
    match a with
    | .recvKey =>
      match s.mainPc, s.keysClosed, s.pending with
      | .select, false, key :: rest => some { s with pending := rest, mainPc := .acquire key }
      | _, _, _ => none
    | .recvResult i =>
      match s.mainPc, s.tasks[i]? with
      | .select, some t =>
        if t.pc = .sendResult then
          some { s with mainPc := .report t.key,
                        tasks := s.tasks.set i { t with pc := .spawnInc } }
        else none
      | _, _ => none
    | .main => stepMain capacity s
    | .generator =>
      match s.keysClosed, s.pending with
      | true, _ :: _ => some { s with crashed := true }
      | _, _ => none
    | .task i =>
      match s.tasks[i]? with
      | some t => stepTask verify s i t
      | none => none
    | .incrementer i =>
      match s.tasks[i]? with
      | some t => stepInc s i t
      | none => none
    | .ticker => stepTicker s

/-- The state reached from `s` under the scheduling choices `as`, if all are enabled. -/
def runWith (verify : List Nat → Bool) (capacity : Nat) : State → List Action → Option State
  | s, [] => some s
  | s, a :: as =>
    match stepWith verify capacity s a with
    | some s' => runWith verify capacity s' as
    | none => none

/-- State of `main` with configuration `cfg` when it enters `MAINLOOP`. -/
def init (cfg : Config) : State := initWith (generate cfg.alphabet cfg.maxLength)

/-- One step of `main` with configuration `cfg`: verification is `cfg.jwt.isSignedWithKey` and
`done` has capacity `runtime.NumCPU()*2`. -/
def step (cfg : Config) (s : State) (a : Action) : Option State :=
  stepWith cfg.jwt.isSignedWithKey (cfg.numCPU * 2) s a

/-- The state reached from `s` under the scheduling choices `as`. -/
def run (cfg : Config) (s : State) (as : List Action) : Option State :=
  runWith cfg.jwt.isSignedWithKey (cfg.numCPU * 2) s as

/-- The states the program can be in: those reached from `init` by some schedule. -/
def Reachable (cfg : Config) (s : State) : Prop :=
  ∃ as : List Action, run cfg (init cfg) as = some s

/-- Whether a task at `pc` still holds its admission slot (it has not executed `<-done`). -/
def TaskPc.holdsSlot : TaskPc → Bool
  | .verify => true
  | .sendResult => true
  | .spawnInc => true
  | .release => true
  | .wgDone => false
  | .finished => false

/-- Whether a counter goroutine at `pc` has executed `numberOfTestedKeys++`. -/
def IncPc.counted : IncPc → Bool
  | .unlock => true
  | .finished => true
  | _ => false

/-- Number of verification tasks started that have not yet released their admission slot. -/
def inFlight (s : State) : Nat := s.tasks.countP fun t => t.pc.holdsSlot

/-- Number of tasks whose call of `isSignedWithKey` has returned. -/
def verifiedCount (s : State) : Nat := s.tasks.countP fun t => t.pc != .verify

/-- Whether `main` has received a match: it is past the `select` in the case `<-result`. -/
def MainPc.matchReceived : MainPc → Bool
  | .select => false
  | .acquire _ => false
  | .spawn _ => false
  | _ => true

/-- The choices by which `main` takes key number `i` from the generator and starts task `i`,
and the task and its counter goroutine then run until they return (a task whose key matches
instead blocks at its send on `result`, and the later choices are then not enabled). -/
def dispatchOne (i : Nat) : List Action :=
  [.recvKey, .main, .main, .task i, .task i, .incrementer i, .incrementer i, .incrementer i,
   .task i, .task i]

/-- The transitions of `stepWith`, one constructor per statement (proof view of the step
function). -/
inductive Trans (verify : List Nat → Bool) (capacity : Nat) : State → State → Prop where
  | recvKey (s : State) (key : List Nat) (rest : List (List Nat))
      (hpc : s.mainPc = .select) (hclosed : s.keysClosed = false)
      (hpend : s.pending = key :: rest) :
      Trans verify capacity s { s with pending := rest, mainPc := .acquire key }
  | recvResult (s : State) (i : Nat) (t : Task)
      (hpc : s.mainPc = .select) (ht : s.tasks[i]? = some t) (htpc : t.pc = .sendResult) :
      Trans verify capacity s
        { s with mainPc := .report t.key, tasks := s.tasks.set i { t with pc := .spawnInc } }
  | acquire (s : State) (key : List Nat)
      (hpc : s.mainPc = .acquire key) (hfree : s.slots < capacity) :
      Trans verify capacity s { s with slots := s.slots + 1, mainPc := .spawn key }
  | spawn (s : State) (key : List Nat) (hpc : s.mainPc = .spawn key) :
      Trans verify capacity s
        { s with wg := s.wg + 1, tasks := s.tasks ++ [⟨key, .verify, .notSpawned⟩],
                 mainPc := .select }
  | report (s : State) (key : List Nat) (hpc : s.mainPc = .report key) :
      Trans verify capacity s
        { s with output := some (key, s.numberOfTestedKeys), mainPc := .closeKeys }
  | closeKeys (s : State) (hpc : s.mainPc = .closeKeys) :
      Trans verify capacity s { s with keysClosed := true, mainPc := .closeDone }
  | closeDone (s : State) (hpc : s.mainPc = .closeDone) :
      Trans verify capacity s { s with doneClosed := true, mainPc := .wait }
  | exit (s : State) (hpc : s.mainPc = .wait) (hwg : s.wg = 0) :
      Trans verify capacity s { s with mainPc := .exited }
  | genPanic (s : State) (key : List Nat) (rest : List (List Nat))
      (hclosed : s.keysClosed = true) (hpend : s.pending = key :: rest) :
      Trans verify capacity s { s with crashed := true }
  | verifyYes (s : State) (i : Nat) (t : Task)
      (ht : s.tasks[i]? = some t) (htpc : t.pc = .verify) (hv : verify t.key = true) :
      Trans verify capacity s { s with tasks := s.tasks.set i { t with pc := .sendResult } }
  | verifyNo (s : State) (i : Nat) (t : Task)
      (ht : s.tasks[i]? = some t) (htpc : t.pc = .verify) (hv : verify t.key = false) :
      Trans verify capacity s { s with tasks := s.tasks.set i { t with pc := .spawnInc } }
  | spawnInc (s : State) (i : Nat) (t : Task)
      (ht : s.tasks[i]? = some t) (htpc : t.pc = .spawnInc) :
      Trans verify capacity s
        { s with tasks := s.tasks.set i { t with pc := .release, inc := .lock } }
  | release (s : State) (i : Nat) (t : Task)
      (ht : s.tasks[i]? = some t) (htpc : t.pc = .release) (hslots : 0 < s.slots) :
      Trans verify capacity s
        { s with slots := s.slots - 1, tasks := s.tasks.set i { t with pc := .wgDone } }
  | releaseClosed (s : State) (i : Nat) (t : Task)
      (ht : s.tasks[i]? = some t) (htpc : t.pc = .release) (hslots : ¬ 0 < s.slots)
      (hclosed : s.doneClosed = true) :
      Trans verify capacity s { s with tasks := s.tasks.set i { t with pc := .wgDone } }
  | wgDone (s : State) (i : Nat) (t : Task)
      (ht : s.tasks[i]? = some t) (htpc : t.pc = .wgDone) (hwg : 0 < s.wg) :
      Trans verify capacity s
        { s with wg := s.wg - 1, tasks := s.tasks.set i { t with pc := .finished } }
  | wgPanic (s : State) (i : Nat) (t : Task)
      (ht : s.tasks[i]? = some t) (htpc : t.pc = .wgDone) (hwg : ¬ 0 < s.wg) :
      Trans verify capacity s { s with crashed := true }
  | incLock (s : State) (i : Nat) (t : Task)
      (ht : s.tasks[i]? = some t) (htinc : t.inc = .lock) (hlock : s.lock = none) :
      Trans verify capacity s
        { s with lock := some (.incrementer i),
                 tasks := s.tasks.set i { t with inc := .increment } }
  | incIncrement (s : State) (i : Nat) (t : Task)
      (ht : s.tasks[i]? = some t) (htinc : t.inc = .increment) :
      Trans verify capacity s
        { s with numberOfTestedKeys := s.numberOfTestedKeys + 1,
                 tasks := s.tasks.set i { t with inc := .unlock } }
  | incUnlock (s : State) (i : Nat) (t : Task)
      (ht : s.tasks[i]? = some t) (htinc : t.inc = .unlock) :
      Trans verify capacity s
        { s with lock := none, tasks := s.tasks.set i { t with inc := .finished } }
  | tickLock (s : State) (hidle : s.tickerLocked = false) (hlock : s.lock = none) :
      Trans verify capacity s { s with lock := some .ticker, tickerLocked := true }
  | tickPrint (s : State) (hheld : s.tickerLocked = true) :
      Trans verify capacity s
        { s with
          progress := s.progress ++ [(s.numberOfTestedKeys,
            s.numberOfTestedKeys - s.previousNumberOfTestedKeys)],
          previousNumberOfTestedKeys := s.numberOfTestedKeys, lock := none,
          tickerLocked := false }

/-- Number of admission slots `main` holds for a task it has not started yet: one between
`done <- struct{}{}` and the `go` statement. -/
def MainPc.slotTaken : MainPc → Nat
  | .spawn _ => 1
  | _ => 0

/-- The key `main` has received from the generator and not yet handed to a task. -/
def MainPc.held : MainPc → List (List Nat)
  | .acquire key => [key]
  | .spawn key => [key]
  | _ => []

/-- Whether a task at `pc` has not yet started its counter goroutine. -/
def TaskPc.beforeInc : TaskPc → Bool
  | .verify => true
  | .sendResult => true
  | .spawnInc => true
  | _ => false

/-- Whether `main` at `pc` has printed the result line. -/
def MainPc.reported : MainPc → Bool
  | .closeKeys => true
  | .closeDone => true
  | .wait => true
  | .exited => true
  | _ => false

/-- Invariant of the search started on the key sequence `keys`. -/
structure Inv (verify : List Nat → Bool) (capacity : Nat) (keys : List (List Nat))
    (s : State) : Prop where
  slots_eq : s.slots = inFlight s + s.mainPc.slotTaken
  slots_le : s.slots ≤ capacity
  wg_eq : s.wg = s.tasks.countP fun t => t.pc != .finished
  counter_eq : s.numberOfTestedKeys = s.tasks.countP fun t => t.inc.counted
  lock_task : ∀ i t, s.tasks[i]? = some t → t.inc = .increment ∨ t.inc = .unlock →
    s.lock = some (.incrementer i)
  lock_ticker : s.tickerLocked = true → s.lock = some .ticker
  inc_pc : ∀ t ∈ s.tasks, (t.inc = .notSpawned ↔ t.pc.beforeInc = true)
  keys_eq : s.tasks.map (·.key) ++ s.mainPc.held ++ s.pending = keys
  send_ok : ∀ t ∈ s.tasks, t.pc = .sendResult → verify t.key = true
  report_ok : ∀ k, s.mainPc = .report k → verify k = true ∧ k ∈ keys
  output_ok : ∀ k n, s.output = some (k, n) →
    verify k = true ∧ k ∈ keys ∧ n ≤ s.numberOfTestedKeys
  output_iff : s.output.isSome = s.mainPc.reported
  keys_closed : s.keysClosed = true → s.mainPc.reported = true
  crash_closed : s.crashed = true → s.keysClosed = true

/-! ## Scenarios -/

/-- The HMAC-SHA256 tag of the signed content `a.b` under the key `ba`. -/
def sigBa : List Nat :=
  [65, 102, 142, 137, 7, 238, 10, 243, 52, 58, 12, 253, 148, 12, 31, 228, 35, 41, 245, 250, 1, 43,
   37, 142, 199, 97, 187, 200, 128, 229, 219, 146]

/-- A token with header `a` and payload `b` signed with the secret `ba`. -/
def tokenBa : JWT :=
  { b64Header := [97], b64Payload := [98], b64Signature := EncodeToString sigBa,
    signedContent := [97, 46, 98], signature := sigBa }

/-- The token that `JWTFromString` returns for the input `a.b.`: its tag is empty. -/
def tokenNoTag : JWT :=
  { b64Header := [97], b64Payload := [98], b64Signature := [], signedContent := [97, 46, 98],
    signature := [] }

/-- The end-to-end scenario of the specification: alphabet `ab`, `maxLength` 3, secret `ba`,
on a machine with one CPU. -/
def cfgBa : Config := { alphabet := [97, 98], maxLength := 3, jwt := tokenBa, numCPU := 1 }

/-- A not-found scenario: alphabet `xy`, `maxLength` 2 as in the specification, and the token
`a.b.`, which no key signs, on a machine with one CPU. -/
def cfgNoMatch : Config :=
  { alphabet := [120, 121], maxLength := 2, jwt := tokenNoTag, numCPU := 1 }

/-- Sequential dispatch in the scenario `cfgBa`: each of the first four keys is taken,
verified and counted before the next one is taken; then the fifth key `ba` is taken and
verified, and `main` receives it on `result`. -/
def sequentialBa : List Action :=
  dispatchOne 0 ++ dispatchOne 1 ++ dispatchOne 2 ++ dispatchOne 3
    ++ [.recvKey, .main, .main, .task 4, .recvResult 4]

/-- The state of the scenario `cfgBa` after the schedule `sequentialBa`: `main` has received
the match and stands at its `fmt.Printf`, the matching task has not started its counter
goroutine yet, and the generator is sending `bb`. -/
def stateBaMatch : State :=
  { pending := [[98, 98], [97, 97, 97], [97, 97, 98], [97, 98, 97], [97, 98, 98], [98, 97, 97],
      [98, 97, 98], [98, 98, 97], [98, 98, 98]],
    keysClosed := false, doneClosed := false, slots := 1, wg := 1,
    tasks := [⟨[97], .finished, .finished⟩, ⟨[98], .finished, .finished⟩,
      ⟨[97, 97], .finished, .finished⟩, ⟨[97, 98], .finished, .finished⟩,
      ⟨[98, 97], .spawnInc, .notSpawned⟩],
    mainPc := .report [98, 97], lock := none, numberOfTestedKeys := 4,
    previousNumberOfTestedKeys := 0, tickerLocked := false, output := none, progress := [],
    crashed := false }

/-- The state of the scenario `cfgBa` in which `main` has returned after the schedule
`sequentialBa`: all five tasks have finished, and the counter goroutine of the matching task
has been started and has not run. -/
def stateBaExited : State :=
  { pending := [[98, 98], [97, 97, 97], [97, 97, 98], [97, 98, 97], [97, 98, 98], [98, 97, 97],
      [98, 97, 98], [98, 98, 97], [98, 98, 98]],
    keysClosed := true, doneClosed := true, slots := 0, wg := 0,
    tasks := [⟨[97], .finished, .finished⟩, ⟨[98], .finished, .finished⟩,
      ⟨[97, 97], .finished, .finished⟩, ⟨[97, 98], .finished, .finished⟩,
      ⟨[98, 97], .finished, .lock⟩],
    mainPc := .exited, lock := none, numberOfTestedKeys := 4,
    previousNumberOfTestedKeys := 0, tickerLocked := false, output := some ([98, 97], 4),
    progress := [], crashed := false }

/-- Sequential dispatch of all six keys in the scenario `cfgNoMatch`. -/
def sequentialSix : List Action :=
  dispatchOne 0 ++ dispatchOne 1 ++ dispatchOne 2 ++ dispatchOne 3 ++ dispatchOne 4
    ++ dispatchOne 5

/-- The state of the scenario `cfgNoMatch` after the schedule `sequentialSix`: the generator has
sent all six keys, every task and counter goroutine has returned, six keys are counted, and
`main` is in its `select`. -/
def stateExhausted : State :=
  { pending := [], keysClosed := false, doneClosed := false, slots := 0, wg := 0,
    tasks := [⟨[120], .finished, .finished⟩, ⟨[121], .finished, .finished⟩,
      ⟨[120, 120], .finished, .finished⟩, ⟨[120, 121], .finished, .finished⟩,
      ⟨[121, 120], .finished, .finished⟩, ⟨[121, 121], .finished, .finished⟩],
    mainPc := .select, lock := none, numberOfTestedKeys := 6,
    previousNumberOfTestedKeys := 0, tickerLocked := false, output := none, progress := [],
    crashed := false }

/-- The key space is exhausted: the generator has sent every key, every task and its counter
goroutine have returned, and `main` is blocked in its `select`. -/
def Exhausted (s : State) : Prop :=
  s.pending = [] ∧ s.mainPc = .select ∧ ∀ t ∈ s.tasks, t.pc = .finished ∧ t.inc = .finished

/-! ## The generator emits the key space in order -/

theorem rangeIndicesFrom_ascii (s : List Nat) (h : ∀ b ∈ s, b < 0x80) (pos : Nat) :
    rangeIndicesFrom s pos 0 = List.range' pos s.length := by
  induction s generalizing pos with
  | nil => rfl
  | cons b rest ih =>
    have hb : b < 0x80 := h b (List.mem_cons_self _ _)
    have hw : runeWidth (b :: rest) = 1 := by simp [runeWidth, hb]
    simp only [rangeIndicesFrom, hw, List.length_cons, List.range'_succ]
    rw [ih (fun c hc => h c (List.mem_cons_of_mem _ hc))]

theorem symbols_ascii (alphabet : List Nat) (h : ∀ b ∈ alphabet, b < 0x80) :
    symbols alphabet = alphabet := by
  unfold symbols rangeIndices
  rw [rangeIndicesFrom_ascii alphabet h 0]
  apply List.ext_getElem
  · simp
  · intro i h1 h2
    simp [List.getD_eq_getElem?_getD, List.getElem?_eq_getElem h2]

theorem take_succ_set (l : List Nat) (n a : Nat) (h : n < l.length) :
    (l.set n a).take (n + 1) = l.take n ++ [a] := by
  induction l generalizing n with
  | nil => simp at h
  | cons x xs ih =>
    cases n with
    | zero => simp
    | succ m =>
      have hm : m < xs.length := by simpa using h
      simp [List.set_cons_succ, List.take_succ_cons, ih m hm]

theorem take_of_take_succ (l1 l2 : List Nat) (n a : Nat) (h2 : n ≤ l2.length)
    (h : l1.take (n + 1) = l2.take n ++ [a]) : l1.take n = l2.take n := by
  have h3 := congrArg (List.take n) h
  rw [List.take_take, Nat.min_eq_left (Nat.le_succ n)] at h3
  rw [h3, List.take_append_of_le_length (by simp [h2])]
  simp

theorem doGenerate_fold (alphabet : List Nat) (d n : Nat)
    (ih : ∀ arr : List Nat, n + 1 + d ≤ arr.length →
      (doGenerate alphabet d arr (n + 1)).1 = (words (symbols alphabet) d).map (arr.take (n + 1) ++ ·)
      ∧ (doGenerate alphabet d arr (n + 1)).2.take (n + 1) = arr.take (n + 1)
      ∧ (doGenerate alphabet d arr (n + 1)).2.length = arr.length)
    (idxs : List Nat) (out : List (List Nat)) (arr : List Nat) (harr : n + 1 + d ≤ arr.length) :
    let r := idxs.foldl
      (fun st index =>
        let r := doGenerate alphabet d (st.2.set n (alphabet.getD index 0)) (n + 1)
        (st.1 ++ r.1, r.2))
      (out, arr)
    r.1 = out ++ (idxs.map fun index => alphabet.getD index 0).flatMap
        (fun a => (words (symbols alphabet) d).map fun w => arr.take n ++ a :: w)
    ∧ r.2.take n = arr.take n ∧ r.2.length = arr.length := by
  induction idxs generalizing out arr with
  | nil => simp
  | cons i rest ihr =>
    simp only [List.foldl_cons, List.map_cons, List.flatMap_cons]
    have hlen : n + 1 + d ≤ (arr.set n (alphabet.getD i 0)).length := by simpa using harr
    obtain ⟨h1, h2, h3⟩ := ih (arr.set n (alphabet.getD i 0)) hlen
    have hlen2 : n + 1 + d ≤ (doGenerate alphabet d (arr.set n (alphabet.getD i 0)) (n + 1)).2.length := by
      rw [h3]; exact hlen
    have htk : (arr.set n (alphabet.getD i 0)).take (n + 1) = arr.take n ++ [alphabet.getD i 0] := by
      exact take_succ_set arr n _ (by omega)
    have htk2 : (doGenerate alphabet d (arr.set n (alphabet.getD i 0)) (n + 1)).2.take n = arr.take n := by
      exact take_of_take_succ _ arr n _ (by omega) (h2.trans htk)
    obtain ⟨g1, g2, g3⟩ := ihr (out ++ (doGenerate alphabet d (arr.set n (alphabet.getD i 0)) (n + 1)).1)
      (doGenerate alphabet d (arr.set n (alphabet.getD i 0)) (n + 1)).2 hlen2
    refine ⟨?_, ?_, ?_⟩
    · rw [g1, h1, htk, htk2]
      simp [List.append_assoc]
    · rw [g2, htk2]
    · rw [g3, h3]; simp


theorem doGenerate_spec (alphabet : List Nat) (d : Nat) :
    ∀ (n : Nat) (arr : List Nat), n + d ≤ arr.length →
      (doGenerate alphabet d arr n).1 = (words (symbols alphabet) d).map (arr.take n ++ ·)
      ∧ (doGenerate alphabet d arr n).2.take n = arr.take n
      ∧ (doGenerate alphabet d arr n).2.length = arr.length := by
  induction d with
  | zero => intro n arr _; simp [doGenerate, words]
  | succ d ih =>
    intro n arr harr
    have key := doGenerate_fold alphabet d n
      (fun arr h => ih (n + 1) arr h) (rangeIndices alphabet) [] arr (by omega)
    simp only [doGenerate]
    obtain ⟨k1, k2, k3⟩ := key
    refine ⟨?_, k2, k3⟩
    rw [k1]
    simp [words, symbols, List.flatMap_map, List.map_flatMap, Function.comp_def]

theorem generate_eq (alphabet : List Nat) (maxLength : Int) :
    generate alphabet maxLength =
      (List.range maxLength.toNat).flatMap fun i => words (symbols alphabet) (i + 1) := by
  unfold generate
  congr 1
  funext i
  rw [(doGenerate_spec alphabet (i + 1) 0 (List.replicate (i + 1) 0) (by simp)).1]
  simp


theorem mem_words (syms : List Nat) (d : Nat) (w : List Nat) :
    w ∈ words syms d ↔ w.length = d ∧ ∀ b ∈ w, b ∈ syms := by
  induction d generalizing w with
  | zero =>
    simp only [words, List.mem_singleton]
    constructor
    · rintro rfl; simp
    · rintro ⟨h, _⟩; exact List.length_eq_zero.mp h
  | succ d ih =>
    simp only [words, List.mem_flatMap, List.mem_map]
    constructor
    · rintro ⟨a, ha, u, hu, rfl⟩
      obtain ⟨h1, h2⟩ := (ih u).mp hu
      refine ⟨by simp [h1], ?_⟩
      intro b hb
      rcases List.mem_cons.mp hb with rfl | hb
      · exact ha
      · exact h2 b hb
    · rintro ⟨h1, h2⟩
      cases w with
      | nil => simp at h1
      | cons a u =>
        refine ⟨a, h2 a (List.mem_cons_self _ _), u, (ih u).mpr ⟨by simpa using h1, ?_⟩, rfl⟩
        intro b hb
        exact h2 b (List.mem_cons_of_mem _ hb)

theorem length_words (syms : List Nat) (d : Nat) :
    (words syms d).length = syms.length ^ d := by
  induction d with
  | zero => simp [words]
  | succ d ih =>
    have hc : (List.length ∘ fun a : Nat => (words syms d).map (a :: ·)) =
        fun _ => syms.length ^ d := by
      funext a; simp [ih]
    rw [words, List.length_flatMap, hc, List.map_const', List.sum_replicate, smul_eq_mul, pow_succ]
    ring

theorem lex_words (syms : List Nat) (hs : syms.Nodup) (d : Nat) :
    (words syms d).Pairwise (List.Lex fun a b => syms.indexOf a < syms.indexOf b) := by
  induction d with
  | zero => simp [words]
  | succ d ih =>
    simp only [words]
    rw [List.pairwise_flatMap]
    constructor
    · intro a _
      rw [List.pairwise_map]
      exact ih.imp fun h => List.Lex.cons h
    · have hidx : syms.Pairwise fun a b => syms.indexOf a < syms.indexOf b := by
        rw [List.pairwise_iff_getElem]
        intro i j hi hj hij
        rw [List.indexOf_getElem hs, List.indexOf_getElem hs]
        exact hij
      refine hidx.imp ?_
      intro a b hab x hx y hy
      obtain ⟨u, _, rfl⟩ := List.mem_map.mp hx
      obtain ⟨v, _, rfl⟩ := List.mem_map.mp hy
      exact List.Lex.rel hab

theorem lex_irrefl (alphabet : List Nat) (u : List Nat) :
    ¬ List.Lex (fun a b => alphabet.indexOf a < alphabet.indexOf b) u u := by
  induction u with
  | nil => intro h; cases h
  | cons a u ih =>
    intro h
    cases h with
    | cons h => exact ih h
    | rel h => exact Nat.lt_irrefl _ h

theorem keyOrder_generate (alphabet : List Nat) (hs : (symbols alphabet).Nodup) (maxLength : Int) :
    (generate alphabet maxLength).Pairwise (keyOrder (symbols alphabet)) := by
  rw [generate_eq, List.pairwise_flatMap]
  constructor
  · intro i _
    refine (lex_words (symbols alphabet) hs (i + 1)).imp_of_mem ?_
    intro u v hu hv h
    right
    exact ⟨by rw [((mem_words _ _ _).mp hu).1, ((mem_words _ _ _).mp hv).1], h⟩
  · refine (List.pairwise_lt_range _).imp ?_
    intro i j hij x hx y hy
    left
    rw [((mem_words _ _ _).mp hx).1, ((mem_words _ _ _).mp hy).1]
    omega

theorem keyOrder_irrefl (alphabet : List Nat) (u : List Nat) : ¬ keyOrder alphabet u u := by
  rintro (h | ⟨_, h⟩)
  · exact Nat.lt_irrefl _ h
  · exact lex_irrefl alphabet u h

theorem nodup_generate (alphabet : List Nat) (hs : (symbols alphabet).Nodup) (maxLength : Int) :
    (generate alphabet maxLength).Nodup := by
  refine (keyOrder_generate alphabet hs maxLength).imp ?_
  intro u v h heq
  subst heq
  exact keyOrder_irrefl _ u h

theorem mem_generate (alphabet : List Nat) (maxLength : Int) (w : List Nat) :
    w ∈ generate alphabet maxLength ↔
      1 ≤ w.length ∧ (w.length : Int) ≤ maxLength ∧ ∀ b ∈ w, b ∈ symbols alphabet := by
  rw [generate_eq]
  simp only [List.mem_flatMap, List.mem_range, mem_words]
  constructor
  · rintro ⟨i, hi, h1, h2⟩
    refine ⟨by omega, ?_, h2⟩
    omega
  · rintro ⟨h1, h2, h3⟩
    exact ⟨w.length - 1, by omega, by omega, h3⟩

theorem length_generate (alphabet : List Nat) (maxLength : Int) :
    (generate alphabet maxLength).length =
      ∑ L ∈ Finset.Icc 1 maxLength.toNat, (symbols alphabet).length ^ L := by
  rw [generate_eq, List.length_flatMap]
  have hc : (List.length ∘ fun i => words (symbols alphabet) (i + 1)) =
      fun i => (symbols alphabet).length ^ (i + 1) := by
    funext i; simp [length_words]
  rw [hc]
  generalize maxLength.toNat = m
  induction m with
  | zero => simp
  | succ m ih =>
    rw [List.range_succ, List.map_append, List.sum_append, ih]
    rw [← Nat.Icc_insert_succ_right (by omega), Finset.sum_insert (by simp)]
    simp [Nat.add_comm]

/-- C1. For an alphabet of pairwise distinct single-byte symbols, the keys that
`generate(alphabet, maxLength, dest)` hands off are without repetition, and a byte sequence is
among them exactly when its length is between 1 and `maxLength` and all its bytes belong to the
alphabet: the emitted keys are the full key space, each key once, and nothing else. -/
theorem generate_emits_key_space_exactly_once (alphabet : List Nat) (maxLength : Int)
    (hsingle : ∀ b ∈ alphabet, b < 0x80) (hdistinct : alphabet.Nodup) :
    (generate alphabet maxLength).Nodup ∧
      ∀ w : List Nat, w ∈ generate alphabet maxLength ↔
        (1 ≤ w.length ∧ (w.length : Int) ≤ maxLength ∧ ∀ b ∈ w, b ∈ alphabet) := by
  have hs := symbols_ascii alphabet hsingle
  refine ⟨nodup_generate alphabet (by rw [hs]; exact hdistinct) maxLength, ?_⟩
  intro w
  rw [mem_generate, hs]

theorem generate_emits_key_space_exactly_once_witness :
    (∀ b ∈ [97, 98], b < 0x80) ∧ [97, 98].Nodup ∧
      ((generate [97, 98] 2).Nodup ∧
        ∀ w : List Nat, w ∈ generate [97, 98] 2 ↔
          (1 ≤ w.length ∧ (w.length : Int) ≤ 2 ∧ ∀ b ∈ w, b ∈ [97, 98])) :=
  ⟨by decide, by decide,
    generate_emits_key_space_exactly_once [97, 98] 2 (by decide) (by decide)⟩

/-- C2. For an alphabet of `A` single-byte symbols (repetitions allowed) and any `maxLength`,
`generate` emits exactly the sum of `A ^ L` for `L` from 1 to `maxLength` keys; none when
`maxLength <= 0` or the alphabet is empty; 14 for the alphabet `ab` with `maxLength` 3 and 6 for
the alphabet `xy` with `maxLength` 2. -/
theorem generate_count (alphabet : List Nat) (maxLength : Int)
    (hsingle : ∀ b ∈ alphabet, b < 0x80) :
    (generate alphabet maxLength).length =
        ∑ L ∈ Finset.Icc 1 maxLength.toNat, alphabet.length ^ L
      ∧ (maxLength ≤ 0 ∨ alphabet = [] → (generate alphabet maxLength).length = 0)
      ∧ (generate [97, 98] 3).length = 14
      ∧ (generate [120, 121] 2).length = 6 := by
  have hlen := length_generate alphabet maxLength
  rw [symbols_ascii alphabet hsingle] at hlen
  refine ⟨hlen, ?_, by decide, by decide⟩
  rintro (h | h)
  · rw [hlen, Int.toNat_eq_zero.mpr h]
    simp
  · rw [hlen, h]
    apply Finset.sum_eq_zero
    intro L hL
    have : 1 ≤ L := (Finset.mem_Icc.mp hL).1
    simp [Nat.ne_of_gt this]

theorem generate_count_witness :
    (∀ b ∈ [97, 98, 97], b < 0x80) ∧
      ((generate [97, 98, 97] 2).length = ∑ L ∈ Finset.Icc 1 (2 : Int).toNat, [97, 98, 97].length ^ L
        ∧ ((2 : Int) ≤ 0 ∨ [97, 98, 97] = [] → (generate [97, 98, 97] 2).length = 0)
        ∧ (generate [97, 98] 3).length = 14
        ∧ (generate [120, 121] 2).length = 6) :=
  ⟨by decide, generate_count [97, 98, 97] 2 (by decide)⟩

/-- C3. For an alphabet of distinct single-byte symbols, any two keys emitted by `generate`
are in key order (the earlier one is shorter, or they have the same length and the earlier one is
lexicographically smaller by alphabet index): so every key of length `L` comes before every key of
length `L + 1`, and each key is strictly greater than the preceding key of the same length.  For
the alphabet `ab` and `maxLength` 3 the first five keys are `a, b, aa, ab, ba`. -/
theorem generate_order (alphabet : List Nat) (maxLength : Int)
    (hsingle : ∀ b ∈ alphabet, b < 0x80) (hdistinct : alphabet.Nodup) :
    (generate alphabet maxLength).Pairwise (keyOrder alphabet)
      ∧ (generate [97, 98] 3).take 5 = [[97], [98], [97, 97], [97, 98], [98, 97]] := by
  have hs := symbols_ascii alphabet hsingle
  have h := keyOrder_generate alphabet (by rw [hs]; exact hdistinct) maxLength
  rw [hs] at h
  exact ⟨h, by decide⟩

theorem generate_order_witness :
    (∀ b ∈ [97, 98], b < 0x80) ∧ [97, 98].Nodup ∧
      ((generate [97, 98] 3).Pairwise (keyOrder [97, 98])
        ∧ (generate [97, 98] 3).take 5 = [[97], [98], [97, 97], [97, 98], [98, 97]]) :=
  ⟨by decide, by decide, generate_order [97, 98] 3 (by decide) (by decide)⟩

/-! ## Verification of a candidate key -/

theorem or_eq_zero (x y : Nat) : x ||| y = 0 ↔ x = 0 ∧ y = 0 := by
  constructor
  · intro h
    have hb : ∀ i, x.testBit i = false ∧ y.testBit i = false := by
      intro i
      have := congrArg (fun n => Nat.testBit n i) h
      simpa [Nat.testBit_or] using this
    exact ⟨Nat.eq_of_testBit_eq fun i => by simp [(hb i).1],
      Nat.eq_of_testBit_eq fun i => by simp [(hb i).2]⟩
  · rintro ⟨rfl, rfl⟩
    rfl

theorem foldl_or_xor_eq_zero (ps : List (Nat × Nat)) (v : Nat) :
    ps.foldl (fun v p => v ||| (p.1 ^^^ p.2)) v = 0 ↔ v = 0 ∧ ∀ p ∈ ps, p.1 = p.2 := by
  induction ps generalizing v with
  | nil => simp
  | cons p ps ih =>
    rw [List.foldl_cons, ih, or_eq_zero, Nat.xor_eq_zero]
    simp [and_assoc]

theorem zip_forall_eq (x y : List Nat) (hlen : x.length = y.length) :
    (∀ p ∈ List.zip x y, p.1 = p.2) ↔ x = y := by
  induction x generalizing y with
  | nil =>
    cases y with
    | nil => simp
    | cons b y => simp at hlen
  | cons a x ih =>
    cases y with
    | nil => simp at hlen
    | cons b y =>
      have hl : x.length = y.length := by simpa using hlen
      simp only [List.zip_cons_cons, List.mem_cons, forall_eq_or_imp, ih y hl, List.cons.injEq]

theorem ConstantTimeCompare_eq_one (x y : List Nat) : ConstantTimeCompare x y = 1 ↔ x = y := by
  unfold ConstantTimeCompare
  by_cases hlen : x.length = y.length
  · simp only [hlen, ne_eq, not_true_eq_false, if_false]
    constructor
    · intro h
      by_cases hv : (List.zip x y).foldl (fun v p => v ||| (p.1 ^^^ p.2)) 0 = 0
      · exact (zip_forall_eq x y hlen).mp ((foldl_or_xor_eq_zero _ 0).mp hv).2
      · simp [hv] at h
    · intro h
      have hv := (foldl_or_xor_eq_zero (List.zip x y) 0).mpr ⟨rfl, (zip_forall_eq x y hlen).mpr h⟩
      simp [hv]
  · have hne : x ≠ y := fun h => hlen (by rw [h])
    simp [hlen, hne]

theorem hmacEqual_iff (x y : List Nat) : hmacEqual x y = true ↔ x = y := by
  unfold hmacEqual
  rw [beq_iff_eq, ConstantTimeCompare_eq_one]

/-- C4. The method `isSignedWithKey(k)` returns true exactly when HMAC-SHA256 with key `k`
over `signedContent` equals `signature` byte for byte; its result is a function of the key, the
signed content and the signature alone; and a token whose signature is the HMAC-SHA256 of its
signed content under `s` is accepted by the key `s`. -/
theorem isSignedWithKey_iff (jwt : JWT) (k : List Nat) :
    (jwt.isSignedWithKey k = true ↔ hmacSHA256 k jwt.signedContent = jwt.signature)
      ∧ (∀ other : JWT, other.signedContent = jwt.signedContent →
          other.signature = jwt.signature → other.isSignedWithKey k = jwt.isSignedWithKey k)
      ∧ (∀ s : List Nat,
          ({ jwt with signature := hmacSHA256 s jwt.signedContent } : JWT).isSignedWithKey s
            = true) := by
  refine ⟨hmacEqual_iff _ _, ?_, ?_⟩
  · intro other h1 h2
    simp only [JWT.isSignedWithKey, h1, h2]
  · intro s
    exact (hmacEqual_iff _ _).mpr rfl

/-! ## Splitting and joining -/

theorem stringsSplit_ne_nil (sep : Nat) (s : List Nat) : stringsSplit sep s ≠ [] := by
  induction s with
  | nil => simp [stringsSplit]
  | cons c rest ih =>
    unfold stringsSplit
    split
    · simp
    · split <;> simp

theorem length_stringsSplit (sep : Nat) (s : List Nat) :
    (stringsSplit sep s).length = s.count sep + 1 := by
  induction s with
  | nil => simp [stringsSplit]
  | cons c rest ih =>
    unfold stringsSplit
    by_cases hc : c = sep
    · subst hc
      simp [ih]
    · have hc2 : ¬ sep = c := fun h => hc h.symm
      rw [if_neg hc, List.count_cons_of_ne hc2]
      split
      · rename_i p ps heq
        rw [← ih, heq]
        simp
      · rename_i heq
        exact absurd heq (stringsSplit_ne_nil sep rest)

theorem stringsJoin_cons (sep e : List Nat) (p : List Nat) (ps : List (List Nat)) :
    stringsJoin sep (e :: p :: ps) = e ++ sep ++ stringsJoin sep (p :: ps) := by
  rfl

theorem stringsJoin_cons_head (sep : List Nat) (c : Nat) (p : List Nat) (ps : List (List Nat)) :
    stringsJoin sep ((c :: p) :: ps) = c :: stringsJoin sep (p :: ps) := by
  cases ps with
  | nil => rfl
  | cons q qs => simp [stringsJoin_cons]

theorem stringsJoin_stringsSplit (sep : Nat) (s : List Nat) :
    stringsJoin [sep] (stringsSplit sep s) = s := by
  induction s with
  | nil => rfl
  | cons c rest ih =>
    unfold stringsSplit
    by_cases hc : c = sep
    · subst hc
      rw [if_pos rfl]
      obtain ⟨p, ps, heq⟩ := List.exists_cons_of_ne_nil (stringsSplit_ne_nil c rest)
      rw [heq, stringsJoin_cons, ← heq, ih]
      simp
    · rw [if_neg hc]
      split
      · rename_i p ps heq
        rw [stringsJoin_cons_head, ← heq, ih]
      · rename_i heq
        exact absurd heq (stringsSplit_ne_nil sep rest)

theorem not_mem_of_mem_stringsSplit (sep : Nat) (s : List Nat) :
    ∀ p ∈ stringsSplit sep s, sep ∉ p := by
  induction s with
  | nil => simp [stringsSplit]
  | cons c rest ih =>
    unfold stringsSplit
    by_cases hc : c = sep
    · rw [if_pos hc]
      intro p hp
      rcases List.mem_cons.mp hp with rfl | hp
      · simp
      · exact ih p hp
    · rw [if_neg hc]
      split
      · rename_i q qs heq
        rw [heq] at ih
        intro p hp
        rcases List.mem_cons.mp hp with rfl | hp
        · intro hmem
          rcases List.mem_cons.mp hmem with h | h
          · exact hc h.symm
          · exact ih q (List.mem_cons_self _ _) h
        · exact ih p (List.mem_cons_of_mem _ hp)
      · rename_i heq
        exact absurd heq (stringsSplit_ne_nil sep rest)

theorem stringsSplit_append (sep : Nat) (h rest : List Nat) (hh : sep ∉ h) :
    stringsSplit sep (h ++ sep :: rest) = h :: stringsSplit sep rest := by
  induction h with
  | nil => simp [stringsSplit]
  | cons c h ih =>
    have hc : ¬ c = sep := fun e => hh (by simp [e])
    have hh2 : sep ∉ h := fun e => hh (List.mem_cons_of_mem _ e)
    rw [List.cons_append, stringsSplit, if_neg hc, ih hh2]

theorem stringsSplit_of_not_mem (sep : Nat) (h : List Nat) (hh : sep ∉ h) :
    stringsSplit sep h = [h] := by
  induction h with
  | nil => rfl
  | cons c h ih =>
    have hc : ¬ c = sep := fun e => hh (by simp [e])
    have hh2 : sep ∉ h := fun e => hh (List.mem_cons_of_mem _ e)
    rw [stringsSplit, if_neg hc, ih hh2]

theorem stringsSplit_three (h p g : List Nat) (hh : 46 ∉ h) (hp : 46 ∉ p) (hg : 46 ∉ g) :
    stringsSplit 46 (h ++ [46] ++ p ++ [46] ++ g) = [h, p, g] := by
  have e : h ++ [46] ++ p ++ [46] ++ g = h ++ 46 :: (p ++ 46 :: g) := by simp
  rw [e, stringsSplit_append 46 h _ hh, stringsSplit_append 46 p _ hp,
    stringsSplit_of_not_mem 46 g hg]

theorem JWTFromString_of_parts (s h p g : List Nat) (hs : stringsSplit 46 s = [h, p, g]) :
    JWTFromString s =
      match DecodeString g with
      | .error err => .error err
      | .ok signature =>
        .ok { b64Header := h, b64Payload := p, b64Signature := g,
              signedContent := h ++ [46] ++ p, signature := signature } := by
  unfold JWTFromString
  simp [hs, stringsJoin]

theorem parts_of_length_three (s : List Nat) (h3 : (stringsSplit 46 s).length = 3) :
    ∃ h p g, stringsSplit 46 s = [h, p, g] ∧ s = h ++ [46] ++ p ++ [46] ++ g
      ∧ 46 ∉ h ∧ 46 ∉ p ∧ 46 ∉ g := by
  have hj := stringsJoin_stringsSplit 46 s
  have hm := not_mem_of_mem_stringsSplit 46 s
  match hsp : stringsSplit 46 s, h3 with
  | [h, p, g], _ =>
    rw [hsp] at hj hm
    refine ⟨h, p, g, rfl, ?_, hm h (by simp), hm p (by simp), hm g (by simp)⟩
    rw [← hj]
    simp [stringsJoin]

theorem JWTFromString_ok_parts (s : List Nat) (jwt : JWT) (hok : JWTFromString s = .ok jwt) :
    ∃ h p g, stringsSplit 46 s = [h, p, g] ∧ s = h ++ [46] ++ p ++ [46] ++ g
      ∧ 46 ∉ h ∧ 46 ∉ p ∧ 46 ∉ g ∧ DecodeString g = .ok jwt.signature
      ∧ jwt = { b64Header := h, b64Payload := p, b64Signature := g,
                signedContent := h ++ [46] ++ p, signature := jwt.signature } := by
  by_cases h3 : (stringsSplit 46 s).length = 3
  · obtain ⟨h, p, g, hsp, hs, hh, hp, hg⟩ := parts_of_length_three s h3
    rw [JWTFromString_of_parts s h p g hsp] at hok
    refine ⟨h, p, g, hsp, hs, hh, hp, hg, ?_⟩
    cases hd : DecodeString g with
    | error err => rw [hd] at hok; cases hok
    | ok sig =>
      rw [hd] at hok
      simp only [Except.ok.injEq] at hok
      subst hok
      exact ⟨rfl, rfl⟩
  · unfold JWTFromString at hok
    simp [h3] at hok

/-! ## Decoding the signature segment -/

theorem decodeMap_ne_ff (c : Nat) : decodeMap c ≠ 0xff ↔ c ∈ encodeURL := by
  unfold decodeMap
  by_cases hc : c ∈ encodeURL
  · have hlt : encodeURL.indexOf c < encodeURL.length := List.indexOf_lt_length.mpr hc
    have h64 : encodeURL.length = 64 := by decide
    simp only [hc, if_true, iff_true]
    omega
  · simp [hc]

theorem decodeMap_lt (c : Nat) (hc : c ∈ encodeURL) : decodeMap c < 64 := by
  unfold decodeMap
  have hlt : encodeURL.indexOf c < encodeURL.length := List.indexOf_lt_length.mpr hc
  have h64 : encodeURL.length = 64 := by decide
  simp only [hc, if_true]
  omega

theorem decode_cons_valid (c : Nat) (rest : List Nat) (si : Nat) (dbuf : List Nat)
    (hc : c ∈ encodeURL) :
    decode (c :: rest) si dbuf =
      match dbuf with
      | [d0, d1, d2] =>
        (decode rest (si + 1) []).map (quantumBytes d0 d1 d2 (decodeMap c) ++ ·)
      | _ => decode rest (si + 1) (dbuf ++ [decodeMap c]) := by
  have hne : decodeMap c ≠ 0xff := (decodeMap_ne_ff c).mpr hc
  rcases dbuf with _ | ⟨d0, _ | ⟨d1, _ | ⟨d2, _ | ⟨d3, r⟩⟩⟩⟩ <;> rw [decode, if_pos hne] <;> simp

theorem decode_cons_newline (c : Nat) (rest : List Nat) (si : Nat) (dbuf : List Nat)
    (hc : c ∉ encodeURL) (hnl : c = 10 ∨ c = 13) :
    decode (c :: rest) si dbuf = decode rest (si + 1) dbuf := by
  have hff : ¬ decodeMap c ≠ 0xff := fun h => hc ((decodeMap_ne_ff c).mp h)
  rcases dbuf with _ | ⟨d0, _ | ⟨d1, _ | ⟨d2, _ | ⟨d3, r⟩⟩⟩⟩ <;>
    rw [decode, if_neg hff, if_pos hnl] <;> simp

theorem decode_cons_invalid (c : Nat) (rest : List Nat) (si : Nat) (dbuf : List Nat)
    (hc : c ∉ encodeURL) (hnl : ¬ (c = 10 ∨ c = 13)) :
    decode (c :: rest) si dbuf = .error (.corruptInput si) := by
  have hff : ¬ decodeMap c ≠ 0xff := fun h => hc ((decodeMap_ne_ff c).mp h)
  rcases dbuf with _ | ⟨d0, _ | ⟨d1, _ | ⟨d2, _ | ⟨d3, r⟩⟩⟩⟩ <;>
    rw [decode, if_neg hff, if_neg hnl] <;> simp

theorem map_ok_iff (f : List Nat → List Nat) (r : Except ParseError (List Nat)) :
    (∃ t, r.map f = .ok t) ↔ ∃ t, r = .ok t := by
  cases r with
  | error e => simp [Except.map]
  | ok t => simp [Except.map]

theorem decode_ok_iff (s : List Nat) : ∀ (si : Nat) (dbuf : List Nat), dbuf.length < 4 →
    ((∃ t, decode s si dbuf = .ok t) ↔
      (∀ c ∈ s, c ∈ encodeURL ∨ c = 10 ∨ c = 13) ∧
        (dbuf.length + (s.filter fun c => decide (c ∈ encodeURL)).length) % 4 ≠ 1) := by
  induction s with
  | nil =>
    intro si dbuf hd
    rcases dbuf with _ | ⟨d0, _ | ⟨d1, _ | ⟨d2, _ | ⟨d3, r⟩⟩⟩⟩ <;> simp [decode] at hd ⊢
    omega
  | cons c rest ih =>
    intro si dbuf hd
    by_cases hc : c ∈ encodeURL
    · rw [decode_cons_valid c rest si dbuf hc]
      rcases dbuf with _ | ⟨d0, _ | ⟨d1, _ | ⟨d2, _ | ⟨d3, r⟩⟩⟩⟩
      · have := ih (si + 1) [decodeMap c] (by simp)
        simp only [List.nil_append]
        rw [this]
        simp [hc, List.filter_cons, Nat.add_comm]
      · have := ih (si + 1) [d0, decodeMap c] (by simp)
        simp only [List.cons_append, List.nil_append]
        rw [this]
        simp [hc, List.filter_cons]
        omega
      · have := ih (si + 1) [d0, d1, decodeMap c] (by simp)
        simp only [List.cons_append, List.nil_append]
        rw [this]
        simp [hc, List.filter_cons]
        omega
      · have := ih (si + 1) [] (by simp)
        simp only
        rw [map_ok_iff, this]
        simp [hc, List.filter_cons]
        omega
      · simp at hd
        omega
    · by_cases hnl : c = 10 ∨ c = 13
      · rw [decode_cons_newline c rest si dbuf hc hnl, ih (si + 1) dbuf hd]
        simp [hc, hnl, List.filter_cons]
      · rw [decode_cons_invalid c rest si dbuf hc hnl]
        simp only [reduceCtorEq, exists_false, List.mem_cons, forall_eq_or_imp, false_iff, not_and]
        intro h
        exact absurd h.1 (by simp [hc, hnl])

/-! ## Encoding then decoding a tag -/

theorem or_eq_add (x y k : Nat) (hx : x % 2 ^ k = 0) (hy : y < 2 ^ k) : x ||| y = x + y := by
  have hx2 : x = 2 ^ k * (x / 2 ^ k) := by
    have := Nat.div_add_mod x (2 ^ k)
    omega
  rw [hx2, ← Nat.mul_add_lt_is_or hy]

theorem and_63 (x : Nat) : x &&& 0x3F = x % 64 := Nat.and_pow_two_sub_one_eq_mod x 6

theorem decodeMap_getD (v : Nat) (hv : v < 64) : decodeMap (encodeURL.getD v 0) = v := by
  revert v
  decide

theorem getD_mem_encodeURL (v : Nat) (hv : v < 64) : encodeURL.getD v 0 ∈ encodeURL := by
  revert v
  decide

theorem quantumBytes_eq (d0 d1 d2 d3 : Nat) (h1 : d1 < 64) (h2 : d2 < 64) (h3 : d3 < 64) :
    quantumBytes d0 d1 d2 d3 =
      [(d0 * 262144 + d1 * 4096 + d2 * 64 + d3) / 65536 % 256,
       (d0 * 262144 + d1 * 4096 + d2 * 64 + d3) / 256 % 256,
       (d0 * 262144 + d1 * 4096 + d2 * 64 + d3) % 256] := by
  unfold quantumBytes
  simp only [Nat.shiftLeft_eq, Nat.shiftRight_eq_div_pow]
  rw [or_eq_add (d0 * 2 ^ 18) (d1 * 2 ^ 12) 18 (by omega) (by omega),
    or_eq_add _ (d2 * 2 ^ 6) 12 (by omega) (by omega), or_eq_add _ d3 6 (by omega) (by omega)]
  norm_num

theorem encode_val2 (a b : Nat) (hb : b < 256) :
    (a <<< 16) ||| (b <<< 8) = a * 65536 + b * 256 := by
  simp only [Nat.shiftLeft_eq]
  rw [or_eq_add (a * 2 ^ 16) (b * 2 ^ 8) 16 (by omega) (by omega)]

theorem encode_val3 (a b c : Nat) (hb : b < 256) (hc : c < 256) :
    (a <<< 16) ||| (b <<< 8) ||| c = a * 65536 + b * 256 + c := by
  rw [encode_val2 a b hb, or_eq_add _ c 8 (by omega) (by omega)]

theorem EncodeToString_mem (t : List Nat) : ∀ c ∈ EncodeToString t, c ∈ encodeURL := by
  induction t using EncodeToString.induct with
  | case1 a b c rest ih =>
    intro x hx
    simp only [EncodeToString, List.mem_cons] at hx
    rcases hx with rfl | rfl | rfl | rfl | hx
    · exact getD_mem_encodeURL _ (by rw [and_63]; omega)
    · exact getD_mem_encodeURL _ (by rw [and_63]; omega)
    · exact getD_mem_encodeURL _ (by rw [and_63]; omega)
    · exact getD_mem_encodeURL _ (by rw [and_63]; omega)
    · exact ih x hx
  | case2 a b =>
    intro x hx
    simp only [EncodeToString, List.mem_cons, List.mem_singleton, List.not_mem_nil, or_false] at hx
    rcases hx with rfl | rfl | rfl <;> exact getD_mem_encodeURL _ (by rw [and_63]; omega)
  | case3 a =>
    intro x hx
    simp only [EncodeToString, List.mem_cons, List.mem_singleton, List.not_mem_nil, or_false] at hx
    rcases hx with rfl | rfl <;> exact getD_mem_encodeURL _ (by rw [and_63]; omega)
  | case4 => simp [EncodeToString]

theorem decode_four (c0 c1 c2 c3 : Nat) (rest : List Nat) (si : Nat)
    (h0 : c0 ∈ encodeURL) (h1 : c1 ∈ encodeURL) (h2 : c2 ∈ encodeURL) (h3 : c3 ∈ encodeURL) :
    decode (c0 :: c1 :: c2 :: c3 :: rest) si [] =
      (decode rest (si + 4) []).map
        (quantumBytes (decodeMap c0) (decodeMap c1) (decodeMap c2) (decodeMap c3) ++ ·) := by
  rw [decode_cons_valid _ _ _ _ h0]
  simp only [List.nil_append]
  rw [decode_cons_valid _ _ _ _ h1]
  simp only [List.cons_append, List.nil_append]
  rw [decode_cons_valid _ _ _ _ h2]
  simp only [List.cons_append, List.nil_append]
  rw [decode_cons_valid _ _ _ _ h3]

theorem decode_EncodeToString (t : List Nat) (ht : ∀ b ∈ t, b < 256) (si : Nat) :
    decode (EncodeToString t) si [] = .ok t := by
  induction t using EncodeToString.induct generalizing si with
  | case1 a b c rest ih =>
    have ha : a < 256 := ht a (by simp)
    have hb : b < 256 := ht b (by simp)
    have hc : c < 256 := ht c (by simp)
    have hrest : ∀ x ∈ rest, x < 256 := fun x hx => ht x (by simp [hx])
    have hval := encode_val3 a b c hb hc
    simp only [EncodeToString]
    rw [decode_four _ _ _ _ _ _ (getD_mem_encodeURL _ (by rw [and_63]; omega))
      (getD_mem_encodeURL _ (by rw [and_63]; omega)) (getD_mem_encodeURL _ (by rw [and_63]; omega))
      (getD_mem_encodeURL _ (by rw [and_63]; omega))]
    rw [ih hrest (si + 4)]
    rw [decodeMap_getD _ (by rw [and_63]; omega), decodeMap_getD _ (by rw [and_63]; omega),
      decodeMap_getD _ (by rw [and_63]; omega), decodeMap_getD _ (by rw [and_63]; omega)]
    rw [quantumBytes_eq _ _ _ _ (by rw [and_63]; omega) (by rw [and_63]; omega)
      (by rw [and_63]; omega)]
    simp only [and_63, Nat.shiftRight_eq_div_pow]
    rw [hval]
    simp only [Except.map, List.cons_append, List.nil_append, Except.ok.injEq, List.cons.injEq,
      and_true]
    refine ⟨?_, ?_, ?_⟩ <;> omega
  | case2 a b =>
    have ha : a < 256 := ht a (by simp)
    have hb : b < 256 := ht b (by simp)
    have hval := encode_val2 a b hb
    simp only [EncodeToString]
    rw [decode_cons_valid _ _ _ _ (getD_mem_encodeURL _ (by rw [and_63]; omega))]
    simp only [List.nil_append]
    rw [decode_cons_valid _ _ _ _ (getD_mem_encodeURL _ (by rw [and_63]; omega))]
    simp only [List.cons_append, List.nil_append]
    rw [decode_cons_valid _ _ _ _ (getD_mem_encodeURL _ (by rw [and_63]; omega))]
    simp only [List.cons_append, List.nil_append, decode]
    rw [decodeMap_getD _ (by rw [and_63]; omega), decodeMap_getD _ (by rw [and_63]; omega),
      decodeMap_getD _ (by rw [and_63]; omega)]
    rw [quantumBytes_eq _ _ _ _ (by rw [and_63]; omega) (by rw [and_63]; omega) (by omega)]
    simp only [and_63, Nat.shiftRight_eq_div_pow]
    rw [hval]
    simp only [List.take, Except.ok.injEq, List.cons.injEq, and_true]
    refine ⟨?_, ?_⟩ <;> omega
  | case3 a =>
    have ha : a < 256 := ht a (by simp)
    have hval : a <<< 16 = a * 65536 := by simp [Nat.shiftLeft_eq]
    simp only [EncodeToString]
    rw [decode_cons_valid _ _ _ _ (getD_mem_encodeURL _ (by rw [and_63]; omega))]
    simp only [List.nil_append]
    rw [decode_cons_valid _ _ _ _ (getD_mem_encodeURL _ (by rw [and_63]; omega))]
    simp only [List.cons_append, List.nil_append, decode]
    rw [decodeMap_getD _ (by rw [and_63]; omega), decodeMap_getD _ (by rw [and_63]; omega)]
    rw [quantumBytes_eq _ _ _ _ (by rw [and_63]; omega) (by omega) (by omega)]
    simp only [and_63, Nat.shiftRight_eq_div_pow]
    rw [hval]
    simp only [List.take, Except.ok.injEq, List.cons.injEq, and_true]
    omega
  | case4 => simp [EncodeToString, decode]

/-! ## Claims about verification and parsing -/

theorem hmacKeyBlock_append_zero (key : List Nat) (hlen : key.length < 64) :
    hmacKeyBlock (key ++ [0]) = hmacKeyBlock key := by
  unfold hmacKeyBlock
  have h1 : ¬ 64 < (key ++ [0]).length := by simp; omega
  have h2 : ¬ 64 < key.length := by omega
  have h3 : 64 - key.length = (64 - (key.length + 1)) + 1 := by omega
  rw [if_neg h1, if_neg h2]
  show key ++ [0] ++ List.replicate (64 - (key ++ [0]).length) 0
    = key ++ List.replicate (64 - key.length) 0
  rw [h3, List.replicate_succ]
  simp

theorem hmacSHA256_append_zero (key msg : List Nat) (hlen : key.length < 64) :
    hmacSHA256 (key ++ [0]) msg = hmacSHA256 key msg := by
  unfold hmacSHA256
  rw [hmacKeyBlock_append_zero key hlen]

theorem mem_encodeURL_iff (c : Nat) :
    c ∈ encodeURL ↔
      (65 ≤ c ∧ c ≤ 90) ∨ (97 ≤ c ∧ c ≤ 122) ∨ (48 ≤ c ∧ c ≤ 57) ∨ c = 45 ∨ c = 95 := by
  constructor
  · intro h
    simp only [encodeURL, List.mem_cons, List.mem_singleton, List.not_mem_nil, or_false] at h
    omega
  · intro h
    have hlt : c < 123 := by omega
    have key : ∀ n < 123,
        ((65 ≤ n ∧ n ≤ 90) ∨ (97 ≤ n ∧ n ≤ 122) ∨ (48 ≤ n ∧ n ≤ 57) ∨ n = 45 ∨ n = 95) →
          n ∈ encodeURL := by
      decide
    exact key c hlt h

theorem except_error_of_not_ok {α : Type} (r : Except ParseError α) (h : ¬ ∃ t, r = .ok t) :
    ∃ err, r = .error err := by
  cases r with
  | error e => exact ⟨e, rfl⟩
  | ok t => exact absurd ⟨t, rfl⟩ h

theorem JWTFromString_error_iff_parts (s : List Nat) :
    (∃ err, JWTFromString s = .error err) ↔
      ((stringsSplit 46 s).length ≠ 3 ∨
        ∃ err, DecodeString ((stringsSplit 46 s).getD 2 []) = .error err) := by
  by_cases h3 : (stringsSplit 46 s).length = 3
  · obtain ⟨h, p, g, hsp, -⟩ := parts_of_length_three s h3
    rw [JWTFromString_of_parts s h p g hsp, hsp]
    cases hd : DecodeString g with
    | error e => simp [hd]
    | ok t => simp [hd]
  · unfold JWTFromString
    simp [h3]

set_option maxRecDepth 100000 in
theorem mainJWT_signed :
    mainJWT.signature = hmacSHA256 [83, 110, 49, 102] mainJWT.signedContent := by
  decide!

set_option maxRecDepth 100000 in
/-- C5, as stated, fails: the token of `main` carries the HMAC-SHA256 tag of the secret `Sn1f`,
and `isSignedWithKey` also returns true for the different key `Sn1f` followed by a zero byte. -/
theorem isSignedWithKey_accepts_zero_extended_secret :
    JWTFromString mainToken = .ok mainJWT ∧
      mainJWT.signature = hmacSHA256 [83, 110, 49, 102] mainJWT.signedContent ∧
      mainJWT.isSignedWithKey [83, 110, 49, 102, 0] = true ∧
      [83, 110, 49, 102, 0] ≠ [83, 110, 49, 102] := by
  have htag := mainJWT_signed
  refine ⟨rfl, htag, ?_, by decide⟩
  exact (hmacEqual_iff _ _).mpr
    ((hmacSHA256_append_zero [83, 110, 49, 102] _ (by decide)).trans htag.symm)

/-- C5, amended. For a token whose tag is the HMAC-SHA256 of its signed content under the
secret `s`, `isSignedWithKey(k)` returns true exactly when `k` yields the same HMAC-SHA256 tag as
`s` on the signed content; it returns true for `k = s`, and also for `s` followed by a zero byte
when `s` is shorter than the 64-byte block. -/
theorem isSignedWithKey_iff_same_tag (jwt : JWT) (s k : List Nat)
    (htag : jwt.signature = hmacSHA256 s jwt.signedContent) :
    (jwt.isSignedWithKey k = true ↔
        hmacSHA256 k jwt.signedContent = hmacSHA256 s jwt.signedContent)
      ∧ jwt.isSignedWithKey s = true
      ∧ (s.length < 64 → jwt.isSignedWithKey (s ++ [0]) = true) := by
  refine ⟨?_, ?_, ?_⟩
  · rw [← htag]
    exact hmacEqual_iff _ _
  · exact (hmacEqual_iff _ _).mpr htag.symm
  · intro hlen
    exact (hmacEqual_iff _ _).mpr ((hmacSHA256_append_zero s _ hlen).trans htag.symm)

set_option maxRecDepth 100000 in
theorem isSignedWithKey_iff_same_tag_witness :
    mainJWT.signature = hmacSHA256 [83, 110, 49, 102] mainJWT.signedContent ∧
      ((mainJWT.isSignedWithKey [97] = true ↔
          hmacSHA256 [97] mainJWT.signedContent
            = hmacSHA256 [83, 110, 49, 102] mainJWT.signedContent)
        ∧ mainJWT.isSignedWithKey [83, 110, 49, 102] = true
        ∧ ([83, 110, 49, 102].length < 64 →
            mainJWT.isSignedWithKey ([83, 110, 49, 102] ++ [0]) = true)) :=
  ⟨mainJWT_signed, isSignedWithKey_iff_same_tag mainJWT [83, 110, 49, 102] [97] mainJWT_signed⟩

/-- C6. The call `JWTFromString(s)` returns an error exactly when `s` does not contain exactly
two `.` bytes (splitting on `.` gives one segment more than there are `.` bytes, so this is when
it does not give 3 segments) or the third segment fails unpadded base64url decoding; in every
other case it returns a token. -/
theorem JWTFromString_error_iff (s : List Nat) :
    ((∃ err, JWTFromString s = .error err) ↔
        (s.count 46 ≠ 2 ∨ ∃ err, DecodeString ((stringsSplit 46 s).getD 2 []) = .error err))
      ∧ (stringsSplit 46 s).length = s.count 46 + 1
      ∧ ((∃ jwt, JWTFromString s = .ok jwt) ↔
        (s.count 46 = 2 ∧ ∃ t, DecodeString ((stringsSplit 46 s).getD 2 []) = .ok t)) := by
  have hlen := length_stringsSplit 46 s
  have hiff := JWTFromString_error_iff_parts s
  have h3 : (stringsSplit 46 s).length ≠ 3 ↔ s.count 46 ≠ 2 := by rw [hlen]; omega
  rw [h3] at hiff
  refine ⟨hiff, hlen, ?_⟩
  constructor
  · rintro ⟨jwt, hok⟩
    have hne : ¬ ∃ err, JWTFromString s = .error err := by
      rintro ⟨err, herr⟩
      rw [hok] at herr
      cases herr
    rw [hiff, not_or, not_not] at hne
    refine ⟨hne.1, ?_⟩
    cases hd : DecodeString ((stringsSplit 46 s).getD 2 []) with
    | error e => exact absurd ⟨e, hd⟩ hne.2
    | ok t => exact ⟨t, rfl⟩
  · rintro ⟨h2, t, ht⟩
    have hne : ¬ ∃ err, JWTFromString s = .error err := by
      rw [hiff, not_or, not_not]
      refine ⟨h2, ?_⟩
      rintro ⟨e, he⟩
      rw [ht] at he
      cases he
    cases hj : JWTFromString s with
    | error e => exact absurd ⟨e, hj⟩ hne
    | ok jwt => exact ⟨jwt, rfl⟩

/-- C7, as stated, fails: the input `..`, whose three segments are all empty, is accepted. -/
theorem JWTFromString_accepts_all_empty_segments :
    JWTFromString [46, 46] =
      .ok { b64Header := [], b64Payload := [], b64Signature := [], signedContent := [46],
            signature := [] } := by
  rfl

/-- C7, amended. The call `JWTFromString` accepts an input only if splitting it on `.` yields
exactly 3 segments, and the segments may be empty: for segments `h`, `p`, `g` without `.`, the
input `h.p.g` is accepted exactly when `g` decodes, whether or not `h` or `p` is empty, and the
input `h.p.` with an empty signature segment is accepted with the empty tag. -/
theorem JWTFromString_segments_may_be_empty (h p g : List Nat)
    (hh : 46 ∉ h) (hp : 46 ∉ p) (hg : 46 ∉ g) :
    (∀ (s : List Nat) (jwt : JWT), JWTFromString s = .ok jwt → (stringsSplit 46 s).length = 3)
      ∧ ((∃ jwt, JWTFromString (h ++ [46] ++ p ++ [46] ++ g) = .ok jwt) ↔
          ∃ t, DecodeString g = .ok t)
      ∧ JWTFromString (h ++ [46] ++ p ++ [46]) =
          .ok { b64Header := h, b64Payload := p, b64Signature := [],
                signedContent := h ++ [46] ++ p, signature := [] } := by
  refine ⟨?_, ?_, ?_⟩
  · intro s jwt hok
    obtain ⟨a, b, c, hsp, -⟩ := JWTFromString_ok_parts s jwt hok
    rw [hsp]
    rfl
  · rw [JWTFromString_of_parts _ h p g (stringsSplit_three h p g hh hp hg)]
    cases hd : DecodeString g with
    | error e => simp
    | ok t => simp
  · have hsp := stringsSplit_three h p [] hh hp (by simp)
    rw [List.append_nil] at hsp
    rw [JWTFromString_of_parts _ h p [] hsp]
    rfl

theorem JWTFromString_segments_may_be_empty_witness :
    46 ∉ ([] : List Nat) ∧ 46 ∉ ([] : List Nat) ∧ 46 ∉ [65, 65] ∧
      ((∀ (s : List Nat) (jwt : JWT), JWTFromString s = .ok jwt →
          (stringsSplit 46 s).length = 3)
        ∧ ((∃ jwt, JWTFromString ([] ++ [46] ++ [] ++ [46] ++ [65, 65]) = .ok jwt) ↔
            ∃ t, DecodeString [65, 65] = .ok t)
        ∧ JWTFromString ([] ++ [46] ++ [] ++ [46]) =
            .ok { b64Header := [], b64Payload := [], b64Signature := [],
                  signedContent := [] ++ [46] ++ [], signature := [] }) :=
  ⟨by decide, by decide, by decide,
    JWTFromString_segments_may_be_empty [] [] [65, 65] (by decide) (by decide) (by decide)⟩

/-- C8. When `JWTFromString(s)` succeeds, `signedContent` is `b64Header`, a `.`, then
`b64Payload`; the input is `signedContent`, a `.`, then `b64Signature`, where `b64Signature`
has no `.` (so `signedContent` is the part of `s` before its last `.`); the three stored segments
joined by `.` give back `s`; and no stored segment contains a `.`. -/
theorem JWTFromString_segments (s : List Nat) (jwt : JWT) (hok : JWTFromString s = .ok jwt) :
    jwt.signedContent = jwt.b64Header ++ [46] ++ jwt.b64Payload
      ∧ s = jwt.signedContent ++ [46] ++ jwt.b64Signature
      ∧ jwt.b64Header ++ [46] ++ jwt.b64Payload ++ [46] ++ jwt.b64Signature = s
      ∧ 46 ∉ jwt.b64Header ∧ 46 ∉ jwt.b64Payload ∧ 46 ∉ jwt.b64Signature := by
  obtain ⟨h, p, g, -, hs, hh, hp, hg, -, hjwt⟩ := JWTFromString_ok_parts s jwt hok
  rw [hjwt]
  exact ⟨rfl, hs, hs.symm, hh, hp, hg⟩

theorem JWTFromString_segments_witness :
    JWTFromString [97, 46, 98, 99, 46, 65, 65] = .ok ⟨[97], [98, 99], [65, 65], [97, 46, 98, 99], [0]⟩
      ∧ ([97, 46, 98, 99] = [97] ++ [46] ++ [98, 99]
        ∧ [97, 46, 98, 99, 46, 65, 65] = [97, 46, 98, 99] ++ [46] ++ [65, 65]
        ∧ [97] ++ [46] ++ [98, 99] ++ [46] ++ [65, 65] = [97, 46, 98, 99, 46, 65, 65]
        ∧ 46 ∉ [97] ∧ 46 ∉ [98, 99] ∧ 46 ∉ [65, 65]) :=
  ⟨rfl, JWTFromString_segments [97, 46, 98, 99, 46, 65, 65]
    ⟨[97], [98, 99], [65, 65], [97, 46, 98, 99], [0]⟩ rfl⟩

/-- C9. For every byte sequence `t` and all header and payload strings `h` and `p` without
`.`, `JWTFromString` succeeds on `h`, `.`, `p`, `.` and the unpadded base64url encoding of `t`,
and the `signature` field of the returned token is `t`. -/
theorem JWTFromString_tag_round_trip (t h p : List Nat)
    (ht : ∀ b ∈ t, b < 256) (hh : 46 ∉ h) (hp : 46 ∉ p) :
    JWTFromString (h ++ [46] ++ p ++ [46] ++ EncodeToString t) =
      .ok { b64Header := h, b64Payload := p, b64Signature := EncodeToString t,
            signedContent := h ++ [46] ++ p, signature := t } := by
  have hg : 46 ∉ EncodeToString t := by
    intro hmem
    have := EncodeToString_mem t 46 hmem
    revert this
    decide
  rw [JWTFromString_of_parts _ h p _ (stringsSplit_three h p _ hh hp hg)]
  unfold DecodeString
  rw [decode_EncodeToString t ht 0]

theorem JWTFromString_tag_round_trip_witness :
    (∀ b ∈ [255, 0, 17, 200], b < 256) ∧ 46 ∉ [97] ∧ 46 ∉ [98] ∧
      JWTFromString ([97] ++ [46] ++ [98] ++ [46] ++ EncodeToString [255, 0, 17, 200]) =
        .ok { b64Header := [97], b64Payload := [98],
              b64Signature := EncodeToString [255, 0, 17, 200],
              signedContent := [97] ++ [46] ++ [98], signature := [255, 0, 17, 200] } :=
  ⟨by decide, by decide, by decide,
    JWTFromString_tag_round_trip [255, 0, 17, 200] [97] [98] (by decide) (by decide) (by decide)⟩

/-- C10, as stated, fails: the input `a.b.AAAA` followed by a line feed has 3 segments, its
third segment contains a line feed, which is outside the alphabet, and has length 5, congruent to
1 modulo 4, and yet the input is accepted (the decoder skips the line feed). -/
theorem JWTFromString_accepts_line_break :
    (stringsSplit 46 [97, 46, 98, 46, 65, 65, 65, 65, 10]).length = 3
      ∧ 10 ∈ (stringsSplit 46 [97, 46, 98, 46, 65, 65, 65, 65, 10]).getD 2 []
      ∧ ¬ ((65 ≤ 10 ∧ 10 ≤ 90) ∨ (97 ≤ 10 ∧ 10 ≤ 122) ∨ (48 ≤ 10 ∧ 10 ≤ 57) ∨ 10 = 45 ∨ 10 = 95)
      ∧ ((stringsSplit 46 [97, 46, 98, 46, 65, 65, 65, 65, 10]).getD 2 []).length % 4 = 1
      ∧ JWTFromString [97, 46, 98, 46, 65, 65, 65, 65, 10] =
          .ok { b64Header := [97], b64Payload := [98], b64Signature := [65, 65, 65, 65, 10],
                signedContent := [97, 46, 98], signature := [0, 0, 0] } := by
  refine ⟨by decide, by decide, by decide, by decide, rfl⟩

/-- C10, amended. The call `JWTFromString` rejects every 3-segment input whose third segment
contains a byte other than `A-Z`, `a-z`, `0-9`, `-`, `_`, carriage return and line feed (so `=`,
`+` and `/` are rejected), or whose third segment, once carriage returns and line feeds are
dropped, has length congruent to 1 modulo 4. -/
theorem JWTFromString_rejects_bad_signature (s : List Nat)
    (_h3 : (stringsSplit 46 s).length = 3)
    (hbad :
      (∃ c ∈ (stringsSplit 46 s).getD 2 [],
        ¬ ((65 ≤ c ∧ c ≤ 90) ∨ (97 ≤ c ∧ c ≤ 122) ∨ (48 ≤ c ∧ c ≤ 57) ∨ c = 45 ∨ c = 95)
          ∧ c ≠ 10 ∧ c ≠ 13)
      ∨ (((stringsSplit 46 s).getD 2 []).filter fun c => decide (c ≠ 10 ∧ c ≠ 13)).length % 4
          = 1) :
    ∃ err, JWTFromString s = .error err := by
  rw [JWTFromString_error_iff_parts]
  right
  apply except_error_of_not_ok
  generalize (stringsSplit 46 s).getD 2 [] = g at hbad
  unfold DecodeString
  rw [decode_ok_iff g 0 [] (by simp)]
  rintro ⟨hall, hcnt⟩
  rcases hbad with ⟨c, hc, hout, h10, h13⟩ | hmod
  · rcases hall c hc with hin | h | h
    · exact hout ((mem_encodeURL_iff c).mp hin)
    · exact h10 h
    · exact h13 h
  · apply hcnt
    have hfil : (g.filter fun c => decide (c ≠ 10 ∧ c ≠ 13))
        = g.filter fun c => decide (c ∈ encodeURL) := by
      apply List.filter_congr
      intro c hc
      rcases hall c hc with hin | h | h
      · have h1 : c ≠ 10 := by rintro rfl; revert hin; decide
        have h2 : c ≠ 13 := by rintro rfl; revert hin; decide
        simp [hin, h1, h2]
      · subst h
        have hn : 10 ∉ encodeURL := by decide
        simp [hn]
      · subst h
        have hn : 13 ∉ encodeURL := by decide
        simp [hn]
    rw [← hfil]
    simpa using hmod

theorem JWTFromString_rejects_bad_signature_witness :
    (stringsSplit 46 [97, 46, 98, 46, 65, 65, 61]).length = 3
      ∧ ((∃ c ∈ (stringsSplit 46 [97, 46, 98, 46, 65, 65, 61]).getD 2 [],
          ¬ ((65 ≤ c ∧ c ≤ 90) ∨ (97 ≤ c ∧ c ≤ 122) ∨ (48 ≤ c ∧ c ≤ 57) ∨ c = 45 ∨ c = 95)
            ∧ c ≠ 10 ∧ c ≠ 13)
        ∨ (((stringsSplit 46 [97, 46, 98, 46, 65, 65, 61]).getD 2 []).filter
            fun c => decide (c ≠ 10 ∧ c ≠ 13)).length % 4 = 1)
      ∧ ∃ err, JWTFromString [97, 46, 98, 46, 65, 65, 61] = .error err :=
  ⟨by decide, Or.inl ⟨61, by decide, by decide⟩,
    JWTFromString_rejects_bad_signature [97, 46, 98, 46, 65, 65, 61] (by decide)
      (Or.inl ⟨61, by decide, by decide⟩)⟩

/-! ## The tag has 32 bytes -/

theorem length_sha256Round (st : List Nat) (kw : Nat × Nat) :
    (sha256Round st kw).length = st.length := by
  unfold sha256Round
  split
  · rfl
  · rfl

theorem length_foldl_sha256Round (kws : List (Nat × Nat)) (st : List Nat) :
    (kws.foldl sha256Round st).length = st.length := by
  induction kws generalizing st with
  | nil => rfl
  | cons kw kws ih => rw [List.foldl_cons, ih, length_sha256Round]

theorem length_sha256Block (hs block : List Nat) : (sha256Block hs block).length = hs.length := by
  unfold sha256Block
  rw [List.length_zipWith, length_foldl_sha256Round, Nat.min_self]

theorem length_sha256Blocks (n : Nat) (hs p : List Nat) :
    (sha256Blocks n hs p).length = hs.length := by
  induction n generalizing hs p with
  | zero => rfl
  | succ n ih => rw [sha256Blocks, ih, length_sha256Block]

theorem length_flatMap_beBytes (ws : List Nat) : (ws.flatMap (beBytes 4)).length = 4 * ws.length := by
  induction ws with
  | nil => rfl
  | cons w ws ih =>
    rw [List.flatMap_cons, List.length_append, ih]
    simp [beBytes]
    omega

theorem length_sha256 (msg : List Nat) : (sha256 msg).length = 32 := by
  unfold sha256
  simp only
  rw [length_flatMap_beBytes, length_sha256Blocks]
  rfl

theorem length_hmacSHA256 (key msg : List Nat) : (hmacSHA256 key msg).length = 32 := by
  unfold hmacSHA256
  exact length_sha256 _

theorem isSignedWithKey_false_of_length_ne (jwt : JWT) (hlen : jwt.signature.length ≠ 32)
    (k : List Nat) : jwt.isSignedWithKey k = false := by
  cases h : jwt.isSignedWithKey k with
  | false => rfl
  | true =>
    have heq := (hmacEqual_iff _ _).mp h
    rw [← heq, length_hmacSHA256] at hlen
    exact absurd rfl hlen

/-- C18. The function `JWTFromString` does not check the length of the tag, and a parsed token
whose decoded signature is not exactly 32 bytes long is rejected by `isSignedWithKey` for every
key; the input `a.b.` is such a token (its signature is empty). -/
theorem isSignedWithKey_false_of_length (s : List Nat) (jwt : JWT)
    (_hok : JWTFromString s = .ok jwt) (hlen : jwt.signature.length ≠ 32) (k : List Nat) :
    jwt.isSignedWithKey k = false
      ∧ JWTFromString [97, 46, 98, 46] = .ok ⟨[97], [98], [], [97, 46, 98], []⟩ := by
  exact ⟨isSignedWithKey_false_of_length_ne jwt hlen k, rfl⟩

theorem isSignedWithKey_false_of_length_witness :
    JWTFromString [97, 46, 98, 46] = .ok ⟨[97], [98], [], [97, 46, 98], []⟩
      ∧ (⟨[97], [98], [], [97, 46, 98], []⟩ : JWT).signature.length ≠ 32
      ∧ ((⟨[97], [98], [], [97, 46, 98], []⟩ : JWT).isSignedWithKey [115] = false
        ∧ JWTFromString [97, 46, 98, 46] = .ok ⟨[97], [98], [], [97, 46, 98], []⟩) :=
  ⟨rfl, by decide,
    isSignedWithKey_false_of_length [97, 46, 98, 46] ⟨[97], [98], [], [97, 46, 98], []⟩ rfl
      (by decide) [115]⟩

/-! ## The generator is an odometer -/

theorem getElem?_flatMap_offset {α β : Type} (f : α → List β) (l : List α) (q r : Nat) (x : α)
    (hq : l[q]? = some x) (hr : r < (f x).length) :
    (l.flatMap f)[((l.take q).map fun y => (f y).length).sum + r]? = (f x)[r]? := by
  induction l generalizing q with
  | nil => simp at hq
  | cons y ys ih =>
    cases q with
    | zero =>
      simp only [List.getElem?_cons_zero, Option.some.injEq] at hq
      subst hq
      simp only [List.take_zero, List.map_nil, List.sum_nil, Nat.zero_add, List.flatMap_cons]
      rw [List.getElem?_append_left hr]
    | succ q =>
      simp only [List.getElem?_cons_succ] at hq
      simp only [List.take_succ_cons, List.map_cons, List.sum_cons, List.flatMap_cons]
      rw [List.getElem?_append_right (by omega)]
      have e : (f y).length + ((ys.take q).map fun y => (f y).length).sum + r - (f y).length
          = ((ys.take q).map fun y => (f y).length).sum + r := by omega
      rw [e]
      exact ih q hq

theorem odometer_succ (alphabet : List Nat) (L i : Nat) :
    odometer alphabet (L + 1) i =
      alphabet.getD ((i / alphabet.length ^ L) % alphabet.length) 0
        :: odometer alphabet L (i % alphabet.length ^ L) := by
  unfold odometer
  rw [List.range_succ_eq_map, List.map_cons, List.map_map]
  congr 1
  apply List.map_congr_left
  intro j hj
  have hjL : j < L := List.mem_range.mp hj
  simp only [Function.comp, Nat.add_sub_cancel]
  have e1 : L - (j + 1) = L - 1 - j := by omega
  have hk : L = (L - 1 - j) + (j + 1) := by omega
  have hpow : alphabet.length ^ L
      = alphabet.length ^ (L - 1 - j) * alphabet.length ^ (j + 1) := by
    rw [← pow_add, ← hk]
  rw [e1]
  congr 1
  rw [hpow, Nat.mod_mul_right_div_self, Nat.mod_mod_of_dvd]
  exact dvd_pow_self _ (by omega)

theorem getElem?_words (syms : List Nat) (L i : Nat) (hi : i < syms.length ^ L) :
    (words syms L)[i]? = some (odometer syms L i) := by
  induction L generalizing i with
  | zero =>
    have : i = 0 := by simpa using hi
    subst this
    rfl
  | succ L ih =>
    have hApos : 0 < syms.length ^ L := by
      rcases Nat.eq_zero_or_pos (syms.length ^ L) with h | h
      · rw [pow_succ, h] at hi; simp at hi
      · exact h
    have hq : i / syms.length ^ L < syms.length := by
      rw [Nat.div_lt_iff_lt_mul hApos]
      rw [pow_succ, Nat.mul_comm] at hi
      exact hi
    have hr : i % syms.length ^ L < syms.length ^ L := Nat.mod_lt _ hApos
    have hx : syms[i / syms.length ^ L]? = some (syms.getD (i / syms.length ^ L) 0) := by
      rw [List.getD_eq_getElem?_getD, List.getElem?_eq_getElem hq]
      rfl
    have hlenf : ∀ y : Nat, ((words syms L).map (y :: ·)).length = syms.length ^ L := by
      intro y; rw [List.length_map, length_words]
    have key := getElem?_flatMap_offset (fun a => (words syms L).map (a :: ·)) syms
      (i / syms.length ^ L) (i % syms.length ^ L) _ hx (by rw [hlenf]; exact hr)
    have hsum : ((syms.take (i / syms.length ^ L)).map
        fun y => ((words syms L).map (y :: ·)).length).sum
        = syms.length ^ L * (i / syms.length ^ L) := by
      simp only [hlenf, List.map_const', List.sum_replicate, List.length_take, smul_eq_mul]
      rw [Nat.min_eq_left (Nat.le_of_lt hq), Nat.mul_comm]
    rw [hsum, Nat.div_add_mod] at key
    rw [words, key, List.getElem?_map, ih _ hr, odometer_succ, Nat.mod_eq_of_lt hq]
    rfl

theorem sum_map_range_pow (A m : Nat) :
    ((List.range m).map fun k => A ^ (k + 1)).sum = ∑ l ∈ Finset.Icc 1 m, A ^ l := by
  induction m with
  | zero => simp
  | succ m ih =>
    rw [List.range_succ, List.map_append, List.sum_append, ih]
    rw [← Nat.Icc_insert_succ_right (by omega), Finset.sum_insert (by simp)]
    simp [Nat.add_comm]

theorem getElem?_generate (alphabet : List Nat) (maxLength : Int) (L i : Nat)
    (hL1 : 1 ≤ L) (hLM : (L : Int) ≤ maxLength) (hi : i < (symbols alphabet).length ^ L) :
    (generate alphabet maxLength)[(∑ l ∈ Finset.Icc 1 (L - 1), (symbols alphabet).length ^ l) + i]?
      = some (odometer (symbols alphabet) L i) := by
  rw [generate_eq]
  have hq : (List.range maxLength.toNat)[L - 1]? = some (L - 1) := by
    rw [List.getElem?_range]
    omega
  have key := getElem?_flatMap_offset (fun k => words (symbols alphabet) (k + 1))
    (List.range maxLength.toNat) (L - 1) i (L - 1) hq
    (by rw [length_words]; rw [Nat.sub_add_cancel hL1]; exact hi)
  have htake : (List.range maxLength.toNat).take (L - 1) = List.range (L - 1) := by
    rw [List.take_range]
    congr 1
    omega
  have hsum : (((List.range maxLength.toNat).take (L - 1)).map
      fun y => (words (symbols alphabet) (y + 1)).length).sum
      = ∑ l ∈ Finset.Icc 1 (L - 1), (symbols alphabet).length ^ l := by
    rw [htake]
    simp only [length_words]
    exact sum_map_range_pow _ _
  rw [hsum] at key
  rw [key]
  simp only [Nat.sub_add_cancel hL1]
  exact getElem?_words _ _ _ hi

theorem digitsValue_cons (A a : Nat) (d : List Nat) :
    digitsValue A (a :: d) = a * A ^ d.length + digitsValue A d := by
  unfold digitsValue
  rw [List.length_cons, List.range_succ_eq_map, List.map_cons, List.map_map, List.sum_cons]
  congr 1
  congr 1
  apply List.map_congr_left
  intro j hj
  have hjL : j < d.length := List.mem_range.mp hj
  have e : d.length + 1 - 1 - (j + 1) = d.length - 1 - j := by omega
  simp only [Function.comp, List.getD_cons_succ, e]

theorem digitsValue_lt (A : Nat) (d : List Nat) (hd : ∀ x ∈ d, x < A) :
    digitsValue A d < A ^ d.length := by
  induction d with
  | nil => simp [digitsValue]
  | cons a d ih =>
    have ha : a < A := hd a (List.mem_cons_self _ _)
    have hv := ih fun x hx => hd x (List.mem_cons_of_mem _ hx)
    rw [digitsValue_cons, List.length_cons, pow_succ]
    calc a * A ^ d.length + digitsValue A d < a * A ^ d.length + A ^ d.length := by omega
      _ = (a + 1) * A ^ d.length := by ring
      _ ≤ A * A ^ d.length := Nat.mul_le_mul_right _ ha
      _ = A ^ d.length * A := Nat.mul_comm _ _

theorem odometer_digitsValue (alphabet d : List Nat) (hd : ∀ x ∈ d, x < alphabet.length) :
    odometer alphabet d.length (digitsValue alphabet.length d)
      = d.map fun x => alphabet.getD x 0 := by
  induction d with
  | nil => rfl
  | cons a d ih =>
    have ha : a < alphabet.length := hd a (List.mem_cons_self _ _)
    have hd2 : ∀ x ∈ d, x < alphabet.length := fun x hx => hd x (List.mem_cons_of_mem _ hx)
    have hv := digitsValue_lt alphabet.length d hd2
    have hpos : 0 < alphabet.length ^ d.length := by omega
    rw [List.length_cons, odometer_succ, digitsValue_cons, List.map_cons]
    have hdiv : (a * alphabet.length ^ d.length + digitsValue alphabet.length d)
        / alphabet.length ^ d.length = a := by
      rw [Nat.mul_comm, Nat.mul_add_div hpos, Nat.div_eq_of_lt hv, Nat.add_zero]
    have hmod : (a * alphabet.length ^ d.length + digitsValue alphabet.length d)
        % alphabet.length ^ d.length = digitsValue alphabet.length d := by
      rw [Nat.mul_comm, Nat.mul_add_mod, Nat.mod_eq_of_lt hv]
    rw [hdiv, hmod, Nat.mod_eq_of_lt ha, ih hd2]

theorem filter_length_words (syms : List Nat) (L n : Nat) :
    (words syms n).filter (fun w => decide (w.length = L))
      = if n = L then words syms n else [] := by
  by_cases h : n = L
  · rw [if_pos h, List.filter_eq_self]
    intro w hw
    simp [((mem_words syms n w).mp hw).1, h]
  · rw [if_neg h, List.filter_eq_nil_iff]
    intro w hw
    simp [((mem_words syms n w).mp hw).1, h]

theorem filter_length_flatMap_words (syms : List Nat) (L m : Nat) :
    ((List.range m).flatMap fun k => words syms (k + 1)).filter (fun w => decide (w.length = L))
      = if 1 ≤ L ∧ L ≤ m then words syms L else [] := by
  induction m with
  | zero =>
    have : ¬ (1 ≤ L ∧ L ≤ 0) := by omega
    rw [if_neg this]
    rfl
  | succ m ih =>
    rw [List.range_succ, List.flatMap_append, List.filter_append, ih]
    simp only [List.flatMap_cons, List.flatMap_nil, List.append_nil, filter_length_words]
    by_cases h1 : 1 ≤ L ∧ L ≤ m
    · have h2 : ¬ m + 1 = L := by omega
      have h3 : 1 ≤ L ∧ L ≤ m + 1 := by omega
      rw [if_pos h1, if_neg h2, if_pos h3, List.append_nil]
    · by_cases h2 : m + 1 = L
      · have h3 : 1 ≤ L ∧ L ≤ m + 1 := by omega
        rw [if_neg h1, if_pos h2, if_pos h3, List.nil_append, h2]
      · have h3 : ¬ (1 ≤ L ∧ L ≤ m + 1) := by omega
        rw [if_neg h1, if_neg h2, if_neg h3, List.append_nil]

/-- C17. The recursive generator is a base-`A` odometer. For an alphabet of `A` single-byte
symbols and a length `L` with `1 <= L <= maxLength`: the `i`-th key of length `L` emitted by
`generate` (counting from 0 and only the keys of that length), for `i < A^L`, holds at position
`j` the byte `alphabet[(i / A^(L-1-j)) mod A]`; it is the key at overall position
`(sum of A^l for l = 1..L-1) + i`; and the key of length `L` with digit indices `d_0 .. d_{L-1}`
is the one at overall position `(sum of A^l for l = 1..L-1) + sum over j of d_j * A^(L-1-j)`. -/
theorem generate_is_odometer (alphabet : List Nat) (maxLength : Int) (L : Nat)
    (hsingle : ∀ b ∈ alphabet, b < 0x80) (hL1 : 1 ≤ L) (hLM : (L : Int) ≤ maxLength) :
    (∀ i, i < alphabet.length ^ L →
        ((generate alphabet maxLength).filter fun w => decide (w.length = L))[i]?
            = some (odometer alphabet L i)
          ∧ (generate alphabet maxLength)[(∑ l ∈ Finset.Icc 1 (L - 1), alphabet.length ^ l) + i]?
            = some (odometer alphabet L i))
      ∧ (∀ d : List Nat, d.length = L → (∀ x ∈ d, x < alphabet.length) →
          (generate alphabet maxLength)[(∑ l ∈ Finset.Icc 1 (L - 1), alphabet.length ^ l)
              + digitsValue alphabet.length d]?
            = some (d.map fun x => alphabet.getD x 0)) := by
  have hs := symbols_ascii alphabet hsingle
  have hpos : ∀ i, i < alphabet.length ^ L →
      (generate alphabet maxLength)[(∑ l ∈ Finset.Icc 1 (L - 1), alphabet.length ^ l) + i]?
        = some (odometer alphabet L i) := by
    intro i hi
    have := getElem?_generate alphabet maxLength L i hL1 hLM (by rw [hs]; exact hi)
    rw [hs] at this
    exact this
  refine ⟨fun i hi => ⟨?_, hpos i hi⟩, ?_⟩
  · rw [generate_eq, hs, filter_length_flatMap_words, if_pos ⟨hL1, by omega⟩]
    exact getElem?_words alphabet L i hi
  · intro d hdL hd
    have h := hpos (digitsValue alphabet.length d) (by rw [← hdL]; exact digitsValue_lt _ d hd)
    rw [h, ← hdL, odometer_digitsValue alphabet d hd]

theorem generate_is_odometer_witness :
    (∀ b ∈ [97, 98, 99], b < 0x80) ∧ 1 ≤ 2 ∧ ((2 : Nat) : Int) ≤ 3 ∧
      ((∀ i, i < [97, 98, 99].length ^ 2 →
          ((generate [97, 98, 99] 3).filter fun w => decide (w.length = 2))[i]?
              = some (odometer [97, 98, 99] 2 i)
            ∧ (generate [97, 98, 99] 3)[(∑ l ∈ Finset.Icc 1 (2 - 1), [97, 98, 99].length ^ l) + i]?
              = some (odometer [97, 98, 99] 2 i))
        ∧ (∀ d : List Nat, d.length = 2 → (∀ x ∈ d, x < [97, 98, 99].length) →
            (generate [97, 98, 99] 3)[(∑ l ∈ Finset.Icc 1 (2 - 1), [97, 98, 99].length ^ l)
                + digitsValue [97, 98, 99].length d]?
              = some (d.map fun x => [97, 98, 99].getD x 0))) :=
  ⟨by decide, by decide, by decide,
    generate_is_odometer [97, 98, 99] 3 2 (by decide) (by decide) (by decide)⟩

/-! ## Steps of the search -/

theorem not_over_of_stepWith (verify : List Nat → Bool) (capacity : Nat) (s s' : State)
    (a : Action) (h : stepWith verify capacity s a = some s') :
    s.crashed = false ∧ s.mainPc ≠ .exited := by
  unfold stepWith at h
  by_cases hover : s.crashed = true ∨ s.mainPc = .exited
  · rw [if_pos hover] at h
    cases h
  · rw [not_or] at hover
    exact ⟨by simpa using hover.1, hover.2⟩

theorem trans_of_stepWith (verify : List Nat → Bool) (capacity : Nat) (s s' : State)
    (a : Action) (h : stepWith verify capacity s a = some s') : Trans verify capacity s s' := by
  unfold stepWith at h
  by_cases hover : s.crashed = true ∨ s.mainPc = .exited
  · rw [if_pos hover] at h
    cases h
  rw [if_neg hover] at h
  cases a with
  | recvKey =>
    simp only at h
    split at h
    · rename_i key rest hpc hclosed hpend
      cases h
      exact Trans.recvKey s key rest hpc hclosed hpend
    · cases h
  | recvResult i =>
    simp only at h
    split at h
    · rename_i t hpc ht
      split at h
      · rename_i htpc
        cases h
        exact Trans.recvResult s i t hpc ht htpc
      · cases h
    · cases h
  | main =>
    simp only [stepMain] at h
    split at h
    · rename_i key hpc
      split at h
      · rename_i hfree
        cases h
        exact Trans.acquire s key hpc hfree
      · cases h
    · rename_i key hpc
      cases h
      exact Trans.spawn s key hpc
    · rename_i key hpc
      cases h
      exact Trans.report s key hpc
    · rename_i hpc
      cases h
      exact Trans.closeKeys s hpc
    · rename_i hpc
      cases h
      exact Trans.closeDone s hpc
    · rename_i hpc
      split at h
      · rename_i hwg
        cases h
        exact Trans.exit s hpc hwg
      · cases h
    · cases h
    · cases h
  | generator =>
    simp only at h
    split at h
    · rename_i key rest hclosed hpend
      cases h
      exact Trans.genPanic s key rest hclosed hpend
    · cases h
  | task i =>
    simp only at h
    split at h
    · rename_i t ht
      simp only [stepTask] at h
      split at h
      · rename_i htpc
        split at h
        · rename_i hv
          cases h
          exact Trans.verifyYes s i t ht htpc hv
        · rename_i hv
          cases h
          exact Trans.verifyNo s i t ht htpc (by simpa using hv)
      · cases h
      · rename_i htpc
        cases h
        exact Trans.spawnInc s i t ht htpc
      · rename_i htpc
        split at h
        · rename_i hslots
          cases h
          exact Trans.release s i t ht htpc hslots
        · rename_i hslots
          split at h
          · rename_i hclosed
            cases h
            exact Trans.releaseClosed s i t ht htpc hslots hclosed
          · cases h
      · rename_i htpc
        split at h
        · rename_i hwg
          cases h
          exact Trans.wgDone s i t ht htpc hwg
        · rename_i hwg
          cases h
          exact Trans.wgPanic s i t ht htpc hwg
      · cases h
    · cases h
  | incrementer i =>
    simp only at h
    split at h
    · rename_i t ht
      simp only [stepInc] at h
      split at h
      · rename_i htinc
        split at h
        · rename_i hlock
          cases h
          exact Trans.incLock s i t ht htinc hlock
        · cases h
      · rename_i htinc
        cases h
        exact Trans.incIncrement s i t ht htinc
      · rename_i htinc
        cases h
        exact Trans.incUnlock s i t ht htinc
      · cases h
      · cases h
    · cases h
  | ticker =>
    simp only [stepTicker] at h
    split at h
    · rename_i hheld
      cases h
      exact Trans.tickPrint s hheld
    · rename_i hidle
      split at h
      · rename_i hlock
        cases h
        exact Trans.tickLock s (by simpa using hidle) hlock
      · cases h

/-! ## Invariants of the search -/

theorem countP_set_add (p : Task → Bool) (l : List Task) (i : Nat) (t t' : Task)
    (h : l[i]? = some t) :
    (l.set i t').countP p + (if p t then 1 else 0) = l.countP p + (if p t' then 1 else 0) := by
  induction l generalizing i with
  | nil => simp at h
  | cons x xs ih =>
    cases i with
    | zero =>
      simp only [List.getElem?_cons_zero, Option.some.injEq] at h
      subst h
      simp only [List.set_cons_zero, List.countP_cons]
      omega
    | succ i =>
      simp only [List.getElem?_cons_succ] at h
      simp only [List.set_cons_succ, List.countP_cons]
      have := ih i h
      omega

theorem map_key_set (l : List Task) (i : Nat) (t t' : Task) (h : l[i]? = some t)
    (hk : t'.key = t.key) : (l.set i t').map (·.key) = l.map (·.key) := by
  induction l generalizing i with
  | nil => rfl
  | cons x xs ih =>
    cases i with
    | zero =>
      simp only [List.getElem?_cons_zero, Option.some.injEq] at h
      subst h
      simp [hk]
    | succ i =>
      simp only [List.getElem?_cons_succ] at h
      simp only [List.set_cons_succ, List.map_cons, ih i h]

theorem forall_mem_set (P : Task → Prop) (l : List Task) (i : Nat) (t' : Task)
    (hl : ∀ t ∈ l, P t) (ht' : P t') : ∀ t ∈ l.set i t', P t := by
  intro t ht
  rcases List.mem_or_eq_of_mem_set ht with h | h
  · exact hl t h
  · rw [h]; exact ht'

theorem mem_of_getElem? (l : List Task) (i : Nat) (t : Task) (h : l[i]? = some t) : t ∈ l :=
  List.mem_iff_getElem?.mpr ⟨i, h⟩

theorem inv_slots (verify : List Nat → Bool) (capacity : Nat) (s s' : State)
    (h : Trans verify capacity s s') (h1 : s.slots = inFlight s + s.mainPc.slotTaken)
    (h2 : s.slots ≤ capacity) :
    s'.slots = inFlight s' + s'.mainPc.slotTaken ∧ s'.slots ≤ capacity := by
  unfold inFlight at *
  cases h with
  | recvKey key rest hpc hclosed hpend => simp_all [MainPc.slotTaken]
  | recvResult i t hpc ht htpc =>
    have := countP_set_add (fun t => t.pc.holdsSlot) s.tasks i t { t with pc := .spawnInc } ht
    simp_all [MainPc.slotTaken, TaskPc.holdsSlot]
  | acquire key hpc hfree => simp_all [MainPc.slotTaken]; omega
  | spawn key hpc => simp_all [MainPc.slotTaken, TaskPc.holdsSlot]
  | report key hpc => simp_all [MainPc.slotTaken]
  | closeKeys hpc => simp_all [MainPc.slotTaken]
  | closeDone hpc => simp_all [MainPc.slotTaken]
  | exit hpc hwg => simp_all [MainPc.slotTaken]
  | genPanic key rest hclosed hpend => simp_all
  | verifyYes i t ht htpc hv =>
    have := countP_set_add (fun t => t.pc.holdsSlot) s.tasks i t { t with pc := .sendResult } ht
    simp_all [TaskPc.holdsSlot]
  | verifyNo i t ht htpc hv =>
    have := countP_set_add (fun t => t.pc.holdsSlot) s.tasks i t { t with pc := .spawnInc } ht
    simp_all [TaskPc.holdsSlot]
  | spawnInc i t ht htpc =>
    have := countP_set_add (fun t => t.pc.holdsSlot) s.tasks i t
      { t with pc := .release, inc := .lock } ht
    simp_all [TaskPc.holdsSlot]
  | release i t ht htpc hslots =>
    have := countP_set_add (fun t => t.pc.holdsSlot) s.tasks i t { t with pc := .wgDone } ht
    simp_all [TaskPc.holdsSlot]
    omega
  | releaseClosed i t ht htpc hslots hclosed =>
    have := countP_set_add (fun t => t.pc.holdsSlot) s.tasks i t { t with pc := .wgDone } ht
    have hpos : 0 < s.tasks.countP fun t => t.pc.holdsSlot :=
      List.countP_pos_iff.mpr ⟨t, mem_of_getElem? _ _ _ ht, by simp [htpc, TaskPc.holdsSlot]⟩
    omega
  | wgDone i t ht htpc hwg =>
    have := countP_set_add (fun t => t.pc.holdsSlot) s.tasks i t { t with pc := .finished } ht
    simp_all [TaskPc.holdsSlot]
  | wgPanic i t ht htpc hwg => simp_all
  | incLock i t ht htinc hlock =>
    have := countP_set_add (fun t => t.pc.holdsSlot) s.tasks i t { t with inc := .increment } ht
    simp_all
  | incIncrement i t ht htinc =>
    have := countP_set_add (fun t => t.pc.holdsSlot) s.tasks i t { t with inc := .unlock } ht
    simp_all
  | incUnlock i t ht htinc =>
    have := countP_set_add (fun t => t.pc.holdsSlot) s.tasks i t { t with inc := .finished } ht
    simp_all
  | tickLock hidle hlock => simp_all
  | tickPrint hheld => simp_all



theorem inv_wg (verify : List Nat → Bool) (capacity : Nat) (s s' : State)
    (h : Trans verify capacity s s')
    (h1 : s.wg = s.tasks.countP fun t => t.pc != .finished) :
    s'.wg = s'.tasks.countP fun t => t.pc != .finished := by
  cases h with
  | recvKey key rest hpc hclosed hpend => simp_all
  | recvResult i t hpc ht htpc =>
    have := countP_set_add (fun t => t.pc != .finished) s.tasks i t { t with pc := .spawnInc } ht
    simp_all
  | acquire key hpc hfree => simp_all
  | spawn key hpc => simp_all
  | report key hpc => simp_all
  | closeKeys hpc => simp_all
  | closeDone hpc => simp_all
  | exit hpc hwg => simp_all
  | genPanic key rest hclosed hpend => simp_all
  | verifyYes i t ht htpc hv =>
    have := countP_set_add (fun t => t.pc != .finished) s.tasks i t { t with pc := .sendResult } ht
    simp_all
  | verifyNo i t ht htpc hv =>
    have := countP_set_add (fun t => t.pc != .finished) s.tasks i t { t with pc := .spawnInc } ht
    simp_all
  | spawnInc i t ht htpc =>
    have := countP_set_add (fun t => t.pc != .finished) s.tasks i t
      { t with pc := .release, inc := .lock } ht
    simp_all
  | release i t ht htpc hslots =>
    have := countP_set_add (fun t => t.pc != .finished) s.tasks i t { t with pc := .wgDone } ht
    simp_all
  | releaseClosed i t ht htpc hslots hclosed =>
    have := countP_set_add (fun t => t.pc != .finished) s.tasks i t { t with pc := .wgDone } ht
    simp_all
  | wgDone i t ht htpc hwg =>
    have := countP_set_add (fun t => t.pc != .finished) s.tasks i t { t with pc := .finished } ht
    simp_all
    omega
  | wgPanic i t ht htpc hwg => simp_all
  | incLock i t ht htinc hlock =>
    have := countP_set_add (fun t => t.pc != .finished) s.tasks i t { t with inc := .increment } ht
    simp_all
  | incIncrement i t ht htinc =>
    have := countP_set_add (fun t => t.pc != .finished) s.tasks i t { t with inc := .unlock } ht
    simp_all
  | incUnlock i t ht htinc =>
    have := countP_set_add (fun t => t.pc != .finished) s.tasks i t { t with inc := .finished } ht
    simp_all
  | tickLock hidle hlock => simp_all
  | tickPrint hheld => simp_all

theorem inv_counter (verify : List Nat → Bool) (capacity : Nat) (s s' : State)
    (h : Trans verify capacity s s')
    (h1 : s.numberOfTestedKeys = s.tasks.countP fun t => t.inc.counted)
    (h2 : ∀ t ∈ s.tasks, (t.inc = .notSpawned ↔ t.pc.beforeInc = true)) :
    s'.numberOfTestedKeys = s'.tasks.countP fun t => t.inc.counted := by
  cases h with
  | recvKey key rest hpc hclosed hpend => simp_all
  | recvResult i t hpc ht htpc =>
    have := countP_set_add (fun t => t.inc.counted) s.tasks i t { t with pc := .spawnInc } ht
    simp_all
  | acquire key hpc hfree => simp_all
  | spawn key hpc => simp_all [IncPc.counted]
  | report key hpc => simp_all
  | closeKeys hpc => simp_all
  | closeDone hpc => simp_all
  | exit hpc hwg => simp_all
  | genPanic key rest hclosed hpend => simp_all
  | verifyYes i t ht htpc hv =>
    have := countP_set_add (fun t => t.inc.counted) s.tasks i t { t with pc := .sendResult } ht
    simp_all
  | verifyNo i t ht htpc hv =>
    have := countP_set_add (fun t => t.inc.counted) s.tasks i t { t with pc := .spawnInc } ht
    simp_all
  | spawnInc i t ht htpc =>
    have := countP_set_add (fun t => t.inc.counted) s.tasks i t
      { t with pc := .release, inc := .lock } ht
    have hns : t.inc = .notSpawned :=
      (h2 t (mem_of_getElem? _ _ _ ht)).mpr (by simp [htpc, TaskPc.beforeInc])
    simp_all [IncPc.counted]
  | release i t ht htpc hslots =>
    have := countP_set_add (fun t => t.inc.counted) s.tasks i t { t with pc := .wgDone } ht
    simp_all
  | releaseClosed i t ht htpc hslots hclosed =>
    have := countP_set_add (fun t => t.inc.counted) s.tasks i t { t with pc := .wgDone } ht
    simp_all
  | wgDone i t ht htpc hwg =>
    have := countP_set_add (fun t => t.inc.counted) s.tasks i t { t with pc := .finished } ht
    simp_all
  | wgPanic i t ht htpc hwg => simp_all
  | incLock i t ht htinc hlock =>
    have := countP_set_add (fun t => t.inc.counted) s.tasks i t { t with inc := .increment } ht
    simp_all [IncPc.counted]
  | incIncrement i t ht htinc =>
    have := countP_set_add (fun t => t.inc.counted) s.tasks i t { t with inc := .unlock } ht
    simp_all [IncPc.counted]
  | incUnlock i t ht htinc =>
    have := countP_set_add (fun t => t.inc.counted) s.tasks i t { t with inc := .finished } ht
    simp_all [IncPc.counted]
  | tickLock hidle hlock => simp_all
  | tickPrint hheld => simp_all



theorem inv_inc_pc (verify : List Nat → Bool) (capacity : Nat) (s s' : State)
    (h : Trans verify capacity s s')
    (h1 : ∀ t ∈ s.tasks, (t.inc = .notSpawned ↔ t.pc.beforeInc = true)) :
    ∀ t ∈ s'.tasks, (t.inc = .notSpawned ↔ t.pc.beforeInc = true) := by
  cases h with
  | recvKey key rest hpc hclosed hpend => exact h1
  | recvResult i t hpc ht htpc =>
    have := h1 t (mem_of_getElem? _ _ _ ht)
    exact forall_mem_set _ _ _ _ h1 (by simp_all [TaskPc.beforeInc])
  | acquire key hpc hfree => exact h1
  | spawn key hpc =>
    intro t ht
    rcases List.mem_append.mp ht with h | h
    · exact h1 t h
    · simp only [List.mem_singleton] at h
      subst h
      simp [TaskPc.beforeInc]
  | report key hpc => exact h1
  | closeKeys hpc => exact h1
  | closeDone hpc => exact h1
  | exit hpc hwg => exact h1
  | genPanic key rest hclosed hpend => exact h1
  | verifyYes i t ht htpc hv =>
    have := h1 t (mem_of_getElem? _ _ _ ht)
    exact forall_mem_set _ _ _ _ h1 (by simp_all [TaskPc.beforeInc])
  | verifyNo i t ht htpc hv =>
    have := h1 t (mem_of_getElem? _ _ _ ht)
    exact forall_mem_set _ _ _ _ h1 (by simp_all [TaskPc.beforeInc])
  | spawnInc i t ht htpc =>
    exact forall_mem_set _ _ _ _ h1 (by simp [TaskPc.beforeInc])
  | release i t ht htpc hslots =>
    have := h1 t (mem_of_getElem? _ _ _ ht)
    exact forall_mem_set _ _ _ _ h1 (by simp_all [TaskPc.beforeInc])
  | releaseClosed i t ht htpc hslots hclosed =>
    have := h1 t (mem_of_getElem? _ _ _ ht)
    exact forall_mem_set _ _ _ _ h1 (by simp_all [TaskPc.beforeInc])
  | wgDone i t ht htpc hwg =>
    have := h1 t (mem_of_getElem? _ _ _ ht)
    exact forall_mem_set _ _ _ _ h1 (by simp_all [TaskPc.beforeInc])
  | wgPanic i t ht htpc hwg => exact h1
  | incLock i t ht htinc hlock =>
    have := h1 t (mem_of_getElem? _ _ _ ht)
    exact forall_mem_set _ _ _ _ h1 (by simp_all)
  | incIncrement i t ht htinc =>
    have := h1 t (mem_of_getElem? _ _ _ ht)
    exact forall_mem_set _ _ _ _ h1 (by simp_all)
  | incUnlock i t ht htinc =>
    have := h1 t (mem_of_getElem? _ _ _ ht)
    exact forall_mem_set _ _ _ _ h1 (by simp_all)
  | tickLock hidle hlock => exact h1
  | tickPrint hheld => exact h1

theorem getElem?_set_task (l : List Task) (i j : Nat) (t' u : Task)
    (h : (l.set i t')[j]? = some u) : (j = i ∧ u = t') ∨ (j ≠ i ∧ l[j]? = some u) := by
  rw [List.getElem?_set] at h
  by_cases hij : i = j
  · subst hij
    rw [if_pos rfl] at h
    split at h
    · left; exact ⟨rfl, (Option.some.inj h).symm⟩
    · cases h
  · rw [if_neg hij] at h
    right
    exact ⟨fun e => hij e.symm, h⟩

theorem lock_task_set (s : State) (i : Nat) (t t' : Task) (lock' : Option Holder)
    (ht : s.tasks[i]? = some t)
    (h1 : ∀ j u, s.tasks[j]? = some u → u.inc = .increment ∨ u.inc = .unlock →
      s.lock = some (.incrementer j))
    (hsame : lock' = s.lock ∨ (s.lock = none ∨ s.lock = some (.incrementer i)))
    (hnew : t'.inc = .increment ∨ t'.inc = .unlock → lock' = some (.incrementer i)) :
    ∀ j u, (s.tasks.set i t')[j]? = some u → u.inc = .increment ∨ u.inc = .unlock →
      lock' = some (.incrementer j) := by
  intro j u hu hcs
  rcases getElem?_set_task _ _ _ _ _ hu with ⟨rfl, rfl⟩ | ⟨hne, hj⟩
  · exact hnew hcs
  · have hl := h1 j u hj hcs
    rcases hsame with h | h | h
    · rw [h]; exact hl
    · rw [h] at hl; cases hl
    · rw [h] at hl
      simp only [Option.some.injEq, Holder.incrementer.injEq] at hl
      exact absurd hl.symm hne

theorem inv_lock (verify : List Nat → Bool) (capacity : Nat) (s s' : State)
    (h : Trans verify capacity s s')
    (h1 : ∀ i t, s.tasks[i]? = some t → t.inc = .increment ∨ t.inc = .unlock →
      s.lock = some (.incrementer i))
    (h2 : s.tickerLocked = true → s.lock = some .ticker) :
    (∀ i t, s'.tasks[i]? = some t → t.inc = .increment ∨ t.inc = .unlock →
      s'.lock = some (.incrementer i)) ∧ (s'.tickerLocked = true → s'.lock = some .ticker) := by
  cases h with
  | recvKey key rest hpc hclosed hpend => exact ⟨h1, h2⟩
  | recvResult i t hpc ht htpc =>
    exact ⟨lock_task_set s i t _ s.lock ht h1 (Or.inl rfl) (h1 i t ht), h2⟩
  | acquire key hpc hfree => exact ⟨h1, h2⟩
  | spawn key hpc =>
    refine ⟨?_, h2⟩
    intro i t ht hcs
    simp only at ht
    by_cases hi : i < s.tasks.length
    · rw [List.getElem?_append_left hi] at ht
      exact h1 i t ht hcs
    · rw [List.getElem?_append_right (by omega)] at ht
      have hmem := mem_of_getElem? _ _ _ ht
      simp only [List.mem_singleton] at hmem
      subst hmem
      simp at hcs
  | report key hpc => exact ⟨h1, h2⟩
  | closeKeys hpc => exact ⟨h1, h2⟩
  | closeDone hpc => exact ⟨h1, h2⟩
  | exit hpc hwg => exact ⟨h1, h2⟩
  | genPanic key rest hclosed hpend => exact ⟨h1, h2⟩
  | verifyYes i t ht htpc hv =>
    exact ⟨lock_task_set s i t _ s.lock ht h1 (Or.inl rfl) (h1 i t ht), h2⟩
  | verifyNo i t ht htpc hv =>
    exact ⟨lock_task_set s i t _ s.lock ht h1 (Or.inl rfl) (h1 i t ht), h2⟩
  | spawnInc i t ht htpc =>
    exact ⟨lock_task_set s i t _ s.lock ht h1 (Or.inl rfl) (by simp), h2⟩
  | release i t ht htpc hslots =>
    exact ⟨lock_task_set s i t _ s.lock ht h1 (Or.inl rfl) (h1 i t ht), h2⟩
  | releaseClosed i t ht htpc hslots hclosed =>
    exact ⟨lock_task_set s i t _ s.lock ht h1 (Or.inl rfl) (h1 i t ht), h2⟩
  | wgDone i t ht htpc hwg =>
    exact ⟨lock_task_set s i t _ s.lock ht h1 (Or.inl rfl) (h1 i t ht), h2⟩
  | wgPanic i t ht htpc hwg => exact ⟨h1, h2⟩
  | incLock i t ht htinc hlock =>
    refine ⟨lock_task_set s i t _ _ ht h1 (Or.inr (Or.inl hlock)) (fun _ => rfl), ?_⟩
    intro htl
    have := h2 htl
    rw [hlock] at this
    cases this
  | incIncrement i t ht htinc =>
    exact ⟨lock_task_set s i t _ s.lock ht h1 (Or.inl rfl) (fun _ => h1 i t ht (Or.inl htinc)), h2⟩
  | incUnlock i t ht htinc =>
    refine ⟨lock_task_set s i t _ none ht h1 (Or.inr (Or.inr (h1 i t ht (Or.inr htinc))))
      (by simp), ?_⟩
    intro htl
    have := h2 htl
    rw [h1 i t ht (Or.inr htinc)] at this
    cases this
  | tickLock hidle hlock =>
    refine ⟨?_, fun _ => rfl⟩
    intro i t ht hcs
    have := h1 i t ht hcs
    rw [hlock] at this
    cases this
  | tickPrint hheld =>
    refine ⟨?_, by simp⟩
    intro i t ht hcs
    have := h1 i t ht hcs
    rw [h2 hheld] at this
    cases this



theorem inv_keys (verify : List Nat → Bool) (capacity : Nat) (keys : List (List Nat))
    (s s' : State) (h : Trans verify capacity s s')
    (h1 : s.tasks.map (·.key) ++ s.mainPc.held ++ s.pending = keys) :
    s'.tasks.map (·.key) ++ s'.mainPc.held ++ s'.pending = keys := by
  cases h with
  | recvKey key rest hpc hclosed hpend => simp_all [MainPc.held]
  | recvResult i t hpc ht htpc =>
    have := map_key_set s.tasks i t { t with pc := .spawnInc } ht rfl
    simp_all [MainPc.held]
  | acquire key hpc hfree => simp_all [MainPc.held]
  | spawn key hpc => simp_all [MainPc.held]
  | report key hpc => simp_all [MainPc.held]
  | closeKeys hpc => simp_all [MainPc.held]
  | closeDone hpc => simp_all [MainPc.held]
  | exit hpc hwg => simp_all [MainPc.held]
  | genPanic key rest hclosed hpend => exact h1
  | verifyYes i t ht htpc hv =>
    have := map_key_set s.tasks i t { t with pc := .sendResult } ht rfl
    simp_all
  | verifyNo i t ht htpc hv =>
    have := map_key_set s.tasks i t { t with pc := .spawnInc } ht rfl
    simp_all
  | spawnInc i t ht htpc =>
    have := map_key_set s.tasks i t { t with pc := .release, inc := .lock } ht rfl
    simp_all
  | release i t ht htpc hslots =>
    have := map_key_set s.tasks i t { t with pc := .wgDone } ht rfl
    simp_all
  | releaseClosed i t ht htpc hslots hclosed =>
    have := map_key_set s.tasks i t { t with pc := .wgDone } ht rfl
    simp_all
  | wgDone i t ht htpc hwg =>
    have := map_key_set s.tasks i t { t with pc := .finished } ht rfl
    simp_all
  | wgPanic i t ht htpc hwg => exact h1
  | incLock i t ht htinc hlock =>
    have := map_key_set s.tasks i t { t with inc := .increment } ht rfl
    simp_all
  | incIncrement i t ht htinc =>
    have := map_key_set s.tasks i t { t with inc := .unlock } ht rfl
    simp_all
  | incUnlock i t ht htinc =>
    have := map_key_set s.tasks i t { t with inc := .finished } ht rfl
    simp_all
  | tickLock hidle hlock => exact h1
  | tickPrint hheld => exact h1

theorem inv_send (verify : List Nat → Bool) (capacity : Nat) (s s' : State)
    (h : Trans verify capacity s s')
    (h1 : ∀ t ∈ s.tasks, t.pc = .sendResult → verify t.key = true) :
    ∀ t ∈ s'.tasks, t.pc = .sendResult → verify t.key = true := by
  cases h with
  | recvKey key rest hpc hclosed hpend => exact h1
  | recvResult i t hpc ht htpc => exact forall_mem_set _ _ _ _ h1 (by simp)
  | acquire key hpc hfree => exact h1
  | spawn key hpc =>
    intro t ht
    rcases List.mem_append.mp ht with h | h
    · exact h1 t h
    · simp only [List.mem_singleton] at h
      subst h
      simp
  | report key hpc => exact h1
  | closeKeys hpc => exact h1
  | closeDone hpc => exact h1
  | exit hpc hwg => exact h1
  | genPanic key rest hclosed hpend => exact h1
  | verifyYes i t ht htpc hv => exact forall_mem_set _ _ _ _ h1 (fun _ => hv)
  | verifyNo i t ht htpc hv => exact forall_mem_set _ _ _ _ h1 (by simp)
  | spawnInc i t ht htpc => exact forall_mem_set _ _ _ _ h1 (by simp)
  | release i t ht htpc hslots => exact forall_mem_set _ _ _ _ h1 (by simp)
  | releaseClosed i t ht htpc hslots hclosed => exact forall_mem_set _ _ _ _ h1 (by simp)
  | wgDone i t ht htpc hwg => exact forall_mem_set _ _ _ _ h1 (by simp)
  | wgPanic i t ht htpc hwg => exact h1
  | incLock i t ht htinc hlock =>
    exact forall_mem_set _ _ _ _ h1 (h1 t (mem_of_getElem? _ _ _ ht))
  | incIncrement i t ht htinc =>
    exact forall_mem_set _ _ _ _ h1 (h1 t (mem_of_getElem? _ _ _ ht))
  | incUnlock i t ht htinc =>
    exact forall_mem_set _ _ _ _ h1 (h1 t (mem_of_getElem? _ _ _ ht))
  | tickLock hidle hlock => exact h1
  | tickPrint hheld => exact h1

theorem inv_report (verify : List Nat → Bool) (capacity : Nat) (keys : List (List Nat))
    (s s' : State) (h : Trans verify capacity s s')
    (hkeys : s.tasks.map (·.key) ++ s.mainPc.held ++ s.pending = keys)
    (hsend : ∀ t ∈ s.tasks, t.pc = .sendResult → verify t.key = true)
    (h1 : ∀ k, s.mainPc = .report k → verify k = true ∧ k ∈ keys) :
    ∀ k, s'.mainPc = .report k → verify k = true ∧ k ∈ keys := by
  cases h with
  | recvResult i t hpc ht htpc =>
    intro k hk
    simp only [MainPc.report.injEq] at hk
    subst hk
    have hmem := mem_of_getElem? _ _ _ ht
    refine ⟨hsend t hmem htpc, ?_⟩
    rw [← hkeys]
    simp only [List.mem_append, List.mem_map]
    exact Or.inl (Or.inl ⟨t, hmem, rfl⟩)
  | recvKey key rest hpc hclosed hpend => intro k hk; simp at hk
  | acquire key hpc hfree => intro k hk; simp at hk
  | spawn key hpc => intro k hk; simp at hk
  | report key hpc => intro k hk; simp at hk
  | closeKeys hpc => intro k hk; simp at hk
  | closeDone hpc => intro k hk; simp at hk
  | exit hpc hwg => intro k hk; simp at hk
  | genPanic key rest hclosed hpend => exact h1
  | verifyYes i t ht htpc hv => exact h1
  | verifyNo i t ht htpc hv => exact h1
  | spawnInc i t ht htpc => exact h1
  | release i t ht htpc hslots => exact h1
  | releaseClosed i t ht htpc hslots hclosed => exact h1
  | wgDone i t ht htpc hwg => exact h1
  | wgPanic i t ht htpc hwg => exact h1
  | incLock i t ht htinc hlock => exact h1
  | incIncrement i t ht htinc => exact h1
  | incUnlock i t ht htinc => exact h1
  | tickLock hidle hlock => exact h1
  | tickPrint hheld => exact h1

theorem inv_output (verify : List Nat → Bool) (capacity : Nat) (keys : List (List Nat))
    (s s' : State) (h : Trans verify capacity s s')
    (hrep : ∀ k, s.mainPc = .report k → verify k = true ∧ k ∈ keys)
    (h1 : ∀ k n, s.output = some (k, n) →
      verify k = true ∧ k ∈ keys ∧ n ≤ s.numberOfTestedKeys)
    (h2 : s.output.isSome = s.mainPc.reported) :
    (∀ k n, s'.output = some (k, n) →
      verify k = true ∧ k ∈ keys ∧ n ≤ s'.numberOfTestedKeys)
      ∧ s'.output.isSome = s'.mainPc.reported := by
  cases h with
  | report key hpc =>
    refine ⟨?_, by simp [MainPc.reported]⟩
    intro k n hk
    simp only [Option.some.injEq, Prod.mk.injEq] at hk
    obtain ⟨rfl, rfl⟩ := hk
    exact ⟨(hrep _ hpc).1, (hrep _ hpc).2, Nat.le_refl _⟩
  | incIncrement i t ht htinc =>
    refine ⟨?_, h2⟩
    intro k n hk
    obtain ⟨a, b, c⟩ := h1 k n hk
    exact ⟨a, b, Nat.le_succ_of_le c⟩
  | recvKey key rest hpc hclosed hpend => simp_all [MainPc.reported]
  | recvResult i t hpc ht htpc => simp_all [MainPc.reported]
  | acquire key hpc hfree => simp_all [MainPc.reported]
  | spawn key hpc => simp_all [MainPc.reported]
  | closeKeys hpc => simp_all [MainPc.reported]
  | closeDone hpc => simp_all [MainPc.reported]
  | exit hpc hwg => simp_all [MainPc.reported]
  | genPanic key rest hclosed hpend => exact ⟨h1, h2⟩
  | verifyYes i t ht htpc hv => exact ⟨h1, h2⟩
  | verifyNo i t ht htpc hv => exact ⟨h1, h2⟩
  | spawnInc i t ht htpc => exact ⟨h1, h2⟩
  | release i t ht htpc hslots => exact ⟨h1, h2⟩
  | releaseClosed i t ht htpc hslots hclosed => exact ⟨h1, h2⟩
  | wgDone i t ht htpc hwg => exact ⟨h1, h2⟩
  | wgPanic i t ht htpc hwg => exact ⟨h1, h2⟩
  | incLock i t ht htinc hlock => exact ⟨h1, h2⟩
  | incUnlock i t ht htinc => exact ⟨h1, h2⟩
  | tickLock hidle hlock => exact ⟨h1, h2⟩
  | tickPrint hheld => exact ⟨h1, h2⟩

theorem inv_closed (verify : List Nat → Bool) (capacity : Nat) (s s' : State)
    (h : Trans verify capacity s s')
    (hwg : s.wg = s.tasks.countP fun t => t.pc != .finished)
    (h1 : s.keysClosed = true → s.mainPc.reported = true)
    (h2 : s.crashed = true → s.keysClosed = true) :
    (s'.keysClosed = true → s'.mainPc.reported = true)
      ∧ (s'.crashed = true → s'.keysClosed = true) := by
  cases h with
  | wgPanic i t ht htpc hwg0 =>
    exfalso
    have hpos : 0 < s.tasks.countP fun t => t.pc != .finished :=
      List.countP_pos_iff.mpr ⟨t, mem_of_getElem? _ _ _ ht, by simp [htpc]⟩
    omega
  | genPanic key rest hclosed hpend => exact ⟨h1, fun _ => hclosed⟩
  | recvKey key rest hpc hclosed hpend => simp_all [MainPc.reported]
  | recvResult i t hpc ht htpc => simp_all [MainPc.reported]
  | acquire key hpc hfree => simp_all [MainPc.reported]
  | spawn key hpc => simp_all [MainPc.reported]
  | report key hpc => simp_all [MainPc.reported]
  | closeKeys hpc => simp_all [MainPc.reported]
  | closeDone hpc => simp_all [MainPc.reported]
  | exit hpc hwg => simp_all [MainPc.reported]
  | verifyYes i t ht htpc hv => exact ⟨h1, h2⟩
  | verifyNo i t ht htpc hv => exact ⟨h1, h2⟩
  | spawnInc i t ht htpc => exact ⟨h1, h2⟩
  | release i t ht htpc hslots => exact ⟨h1, h2⟩
  | releaseClosed i t ht htpc hslots hclosed => exact ⟨h1, h2⟩
  | wgDone i t ht htpc hwg => exact ⟨h1, h2⟩
  | incLock i t ht htinc hlock => exact ⟨h1, h2⟩
  | incIncrement i t ht htinc => exact ⟨h1, h2⟩
  | incUnlock i t ht htinc => exact ⟨h1, h2⟩
  | tickLock hidle hlock => exact ⟨h1, h2⟩
  | tickPrint hheld => exact ⟨h1, h2⟩

theorem inv_trans (verify : List Nat → Bool) (capacity : Nat) (keys : List (List Nat))
    (s s' : State) (hinv : Inv verify capacity keys s) (h : Trans verify capacity s s') :
    Inv verify capacity keys s' := by
  obtain ⟨a1, a2⟩ := inv_slots verify capacity s s' h hinv.slots_eq hinv.slots_le
  obtain ⟨b1, b2⟩ := inv_lock verify capacity s s' h hinv.lock_task hinv.lock_ticker
  obtain ⟨c1, c2⟩ := inv_output verify capacity keys s s' h hinv.report_ok hinv.output_ok
    hinv.output_iff
  obtain ⟨d1, d2⟩ := inv_closed verify capacity s s' h hinv.wg_eq hinv.keys_closed
    hinv.crash_closed
  exact {
    slots_eq := a1
    slots_le := a2
    wg_eq := inv_wg verify capacity s s' h hinv.wg_eq
    counter_eq := inv_counter verify capacity s s' h hinv.counter_eq hinv.inc_pc
    lock_task := b1
    lock_ticker := b2
    inc_pc := inv_inc_pc verify capacity s s' h hinv.inc_pc
    keys_eq := inv_keys verify capacity keys s s' h hinv.keys_eq
    send_ok := inv_send verify capacity s s' h hinv.send_ok
    report_ok := inv_report verify capacity keys s s' h hinv.keys_eq hinv.send_ok hinv.report_ok
    output_ok := c1
    output_iff := c2
    keys_closed := d1
    crash_closed := d2 }

theorem inv_initWith (verify : List Nat → Bool) (capacity : Nat) (keys : List (List Nat)) :
    Inv verify capacity keys (initWith keys) := by
  constructor <;> simp [initWith, inFlight, MainPc.slotTaken, MainPc.held, MainPc.reported]

theorem inv_runWith (verify : List Nat → Bool) (capacity : Nat) (keys : List (List Nat))
    (as : List Action) : ∀ s s' : State, Inv verify capacity keys s →
      runWith verify capacity s as = some s' → Inv verify capacity keys s' := by
  induction as with
  | nil =>
    intro s s' hinv hrun
    simp only [runWith, Option.some.injEq] at hrun
    rw [← hrun]
    exact hinv
  | cons a as ih =>
    intro s s' hinv hrun
    rw [runWith] at hrun
    cases hstep : stepWith verify capacity s a with
    | none => rw [hstep] at hrun; cases hrun
    | some s1 =>
      rw [hstep] at hrun
      exact ih s1 s' (inv_trans verify capacity keys s s1 hinv
        (trans_of_stepWith verify capacity s s1 a hstep)) hrun

theorem inv_of_reachable (cfg : Config) (s : State) (h : Reachable cfg s) :
    Inv cfg.jwt.isSignedWithKey (cfg.numCPU * 2) (generate cfg.alphabet cfg.maxLength) s := by
  obtain ⟨as, hrun⟩ := h
  exact inv_runWith _ _ _ as _ _ (inv_initWith _ _ _) hrun

/-! ## Runs that depend on the verifier only through the keys of the tasks -/

theorem tasks_prefix_trans (verify : List Nat → Bool) (capacity : Nat) (s s' : State)
    (h : Trans verify capacity s s') :
    ∃ extra, s'.tasks.map (·.key) = s.tasks.map (·.key) ++ extra := by
  cases h with
  | spawn key hpc => exact ⟨[key], by simp⟩
  | recvResult i t hpc ht htpc => exact ⟨[], by rw [List.append_nil]; exact map_key_set s.tasks i t _ ht rfl⟩
  | verifyYes i t ht htpc hv => exact ⟨[], by rw [List.append_nil]; exact map_key_set s.tasks i t _ ht rfl⟩
  | verifyNo i t ht htpc hv => exact ⟨[], by rw [List.append_nil]; exact map_key_set s.tasks i t _ ht rfl⟩
  | spawnInc i t ht htpc => exact ⟨[], by rw [List.append_nil]; exact map_key_set s.tasks i t _ ht rfl⟩
  | release i t ht htpc hslots => exact ⟨[], by rw [List.append_nil]; exact map_key_set s.tasks i t _ ht rfl⟩
  | releaseClosed i t ht htpc hslots hclosed =>
    exact ⟨[], by rw [List.append_nil]; exact map_key_set s.tasks i t _ ht rfl⟩
  | wgDone i t ht htpc hwg => exact ⟨[], by rw [List.append_nil]; exact map_key_set s.tasks i t _ ht rfl⟩
  | incLock i t ht htinc hlock => exact ⟨[], by rw [List.append_nil]; exact map_key_set s.tasks i t _ ht rfl⟩
  | incIncrement i t ht htinc => exact ⟨[], by rw [List.append_nil]; exact map_key_set s.tasks i t _ ht rfl⟩
  | incUnlock i t ht htinc => exact ⟨[], by rw [List.append_nil]; exact map_key_set s.tasks i t _ ht rfl⟩
  | recvKey key rest hpc hclosed hpend => exact ⟨[], by simp⟩
  | acquire key hpc hfree => exact ⟨[], by simp⟩
  | report key hpc => exact ⟨[], by simp⟩
  | closeKeys hpc => exact ⟨[], by simp⟩
  | closeDone hpc => exact ⟨[], by simp⟩
  | exit hpc hwg => exact ⟨[], by simp⟩
  | genPanic key rest hclosed hpend => exact ⟨[], by simp⟩
  | wgPanic i t ht htpc hwg => exact ⟨[], by simp⟩
  | tickLock hidle hlock => exact ⟨[], by simp⟩
  | tickPrint hheld => exact ⟨[], by simp⟩

theorem tasks_prefix_runWith (verify : List Nat → Bool) (capacity : Nat) (as : List Action) :
    ∀ s s' : State, runWith verify capacity s as = some s' →
      ∃ extra, s'.tasks.map (·.key) = s.tasks.map (·.key) ++ extra := by
  induction as with
  | nil =>
    intro s s' hrun
    simp only [runWith, Option.some.injEq] at hrun
    exact ⟨[], by rw [hrun]; simp⟩
  | cons a as ih =>
    intro s s' hrun
    rw [runWith] at hrun
    cases hstep : stepWith verify capacity s a with
    | none => rw [hstep] at hrun; cases hrun
    | some s1 =>
      rw [hstep] at hrun
      obtain ⟨e1, h1⟩ := tasks_prefix_trans verify capacity s s1
        (trans_of_stepWith verify capacity s s1 a hstep)
      obtain ⟨e2, h2⟩ := ih s1 s' hrun
      exact ⟨e1 ++ e2, by rw [h2, h1, List.append_assoc]⟩

theorem stepWith_congr (verify verify' : List Nat → Bool) (capacity : Nat) (s : State)
    (a : Action) (hagree : ∀ t ∈ s.tasks, verify t.key = verify' t.key) :
    stepWith verify capacity s a = stepWith verify' capacity s a := by
  unfold stepWith
  split
  · rfl
  · cases a with
    | task i =>
      simp only
      cases ht : s.tasks[i]? with
      | none => rfl
      | some t =>
        simp only [stepTask]
        rw [hagree t (mem_of_getElem? _ _ _ ht)]
    | recvKey => rfl
    | recvResult i => rfl
    | main => rfl
    | generator => rfl
    | incrementer i => rfl
    | ticker => rfl

theorem runWith_congr (verify verify' : List Nat → Bool) (capacity : Nat) (as : List Action) :
    ∀ s s' : State, runWith verify' capacity s as = some s' →
      (∀ t ∈ s'.tasks, verify t.key = verify' t.key) →
      runWith verify capacity s as = some s' := by
  induction as with
  | nil => intro s s' hrun _; exact hrun
  | cons a as ih =>
    intro s s' hrun hagree
    rw [runWith] at hrun ⊢
    cases hstep : stepWith verify' capacity s a with
    | none => rw [hstep] at hrun; cases hrun
    | some s1 =>
      rw [hstep] at hrun
      obtain ⟨e1, h1⟩ := tasks_prefix_runWith verify' capacity (a :: as) s s'
        (by rw [runWith, hstep]; exact hrun)
      have hs : ∀ t ∈ s.tasks, verify t.key = verify' t.key := by
        intro t ht
        have hk : t.key ∈ s'.tasks.map (·.key) := by
          rw [h1]
          exact List.mem_append_left _ (List.mem_map.mpr ⟨t, ht, rfl⟩)
        obtain ⟨u, hu, huk⟩ := List.mem_map.mp hk
        have := hagree u hu
        rw [huk] at this
        exact this
      rw [stepWith_congr verify verify' capacity s a hs, hstep]
      exact ih s1 s' hrun hagree

theorem runWith_append (verify : List Nat → Bool) (capacity : Nat) (as bs : List Action) :
    ∀ s s1 s2 : State, runWith verify capacity s as = some s1 →
      runWith verify capacity s1 bs = some s2 →
      runWith verify capacity s (as ++ bs) = some s2 := by
  induction as with
  | nil =>
    intro s s1 s2 h1 h2
    simp only [runWith, Option.some.injEq] at h1
    rw [h1]
    exact h2
  | cons a as ih =>
    intro s s1 s2 h1 h2
    rw [List.cons_append, runWith]
    rw [runWith] at h1
    cases hstep : stepWith verify capacity s a with
    | none => rw [hstep] at h1; cases h1
    | some s' =>
      rw [hstep] at h1
      exact ih s' s1 s2 h1 h2

theorem reachable_step (cfg : Config) (s s' : State) (a : Action) (h : Reachable cfg s)
    (hstep : step cfg s a = some s') : Reachable cfg s' := by
  obtain ⟨as, hrun⟩ := h
  refine ⟨as ++ [a], ?_⟩
  apply runWith_append _ _ as [a] _ s s' hrun
  rw [runWith]
  unfold step at hstep
  rw [hstep]
  rfl

/-! ## The scenarios are reachable -/

set_option maxRecDepth 100000 in
theorem tokenBa_signed : tokenBa.signature = hmacSHA256 [98, 97] tokenBa.signedContent := by
  decide!

set_option maxRecDepth 100000 in
theorem tokenBa_rejects :
    ∀ k ∈ [[97], [98], [97, 97], [97, 98]], tokenBa.isSignedWithKey k = false := by
  decide!

theorem tokenNoTag_rejects (k : List Nat) : tokenNoTag.isSignedWithKey k = false :=
  isSignedWithKey_false_of_length_ne tokenNoTag (by decide) k

theorem reachable_stateBaMatch : run cfgBa (init cfgBa) sequentialBa = some stateBaMatch := by
  apply runWith_congr _ (fun k => decide (k = [98, 97])) _ sequentialBa _ _ (by decide)
  intro t ht
  simp only [stateBaMatch, List.mem_cons, List.mem_singleton, List.not_mem_nil, or_false] at ht
  rcases ht with rfl | rfl | rfl | rfl | rfl
  · exact tokenBa_rejects _ (by decide)
  · exact tokenBa_rejects _ (by decide)
  · exact tokenBa_rejects _ (by decide)
  · exact tokenBa_rejects _ (by decide)
  · exact (hmacEqual_iff _ _).mpr tokenBa_signed.symm

theorem reachable_stateExhausted :
    run cfgNoMatch (init cfgNoMatch) sequentialSix = some stateExhausted := by
  apply runWith_congr _ (fun _ => false) _ sequentialSix _ _ (by decide)
  intro t _
  exact tokenNoTag_rejects t.key

/-! ## Claims about the search in `main` -/

theorem exhausted_trans (verify : List Nat → Bool) (capacity : Nat) (s s' : State)
    (hex : Exhausted s) (h : Trans verify capacity s s') :
    Exhausted s' ∧ s'.output = s.output ∧ s'.numberOfTestedKeys = s.numberOfTestedKeys
      ∧ s'.crashed = s.crashed := by
  obtain ⟨hp, hm, ht⟩ := hex
  cases h with
  | tickLock hidle hlock => exact ⟨⟨hp, hm, ht⟩, rfl, rfl, rfl⟩
  | tickPrint hheld => exact ⟨⟨hp, hm, ht⟩, rfl, rfl, rfl⟩
  | recvKey key rest hpc hclosed hpend => rw [hp] at hpend; cases hpend
  | genPanic key rest hclosed hpend => rw [hp] at hpend; cases hpend
  | recvResult i t hpc hti htpc =>
    have := (ht t (mem_of_getElem? _ _ _ hti)).1
    rw [htpc] at this; cases this
  | acquire key hpc hfree => rw [hm] at hpc; cases hpc
  | spawn key hpc => rw [hm] at hpc; cases hpc
  | report key hpc => rw [hm] at hpc; cases hpc
  | closeKeys hpc => rw [hm] at hpc; cases hpc
  | closeDone hpc => rw [hm] at hpc; cases hpc
  | exit hpc hwg => rw [hm] at hpc; cases hpc
  | verifyYes i t hti htpc hv =>
    have := (ht t (mem_of_getElem? _ _ _ hti)).1
    rw [htpc] at this; cases this
  | verifyNo i t hti htpc hv =>
    have := (ht t (mem_of_getElem? _ _ _ hti)).1
    rw [htpc] at this; cases this
  | spawnInc i t hti htpc =>
    have := (ht t (mem_of_getElem? _ _ _ hti)).1
    rw [htpc] at this; cases this
  | release i t hti htpc hslots =>
    have := (ht t (mem_of_getElem? _ _ _ hti)).1
    rw [htpc] at this; cases this
  | releaseClosed i t hti htpc hslots hclosed =>
    have := (ht t (mem_of_getElem? _ _ _ hti)).1
    rw [htpc] at this; cases this
  | wgDone i t hti htpc hwg =>
    have := (ht t (mem_of_getElem? _ _ _ hti)).1
    rw [htpc] at this; cases this
  | wgPanic i t hti htpc hwg =>
    have := (ht t (mem_of_getElem? _ _ _ hti)).1
    rw [htpc] at this; cases this
  | incLock i t hti htinc hlock =>
    have := (ht t (mem_of_getElem? _ _ _ hti)).2
    rw [htinc] at this; cases this
  | incIncrement i t hti htinc =>
    have := (ht t (mem_of_getElem? _ _ _ hti)).2
    rw [htinc] at this; cases this
  | incUnlock i t hti htinc =>
    have := (ht t (mem_of_getElem? _ _ _ hti)).2
    rw [htinc] at this; cases this

theorem exhausted_runWith (verify : List Nat → Bool) (capacity : Nat) (as : List Action) :
    ∀ s s' : State, Exhausted s → runWith verify capacity s as = some s' →
      Exhausted s' ∧ s'.output = s.output ∧ s'.numberOfTestedKeys = s.numberOfTestedKeys
        ∧ s'.crashed = s.crashed := by
  induction as with
  | nil =>
    intro s s' hex hrun
    simp only [runWith, Option.some.injEq] at hrun
    rw [← hrun]
    exact ⟨hex, rfl, rfl, rfl⟩
  | cons a as ih =>
    intro s s' hex hrun
    rw [runWith] at hrun
    cases hstep : stepWith verify capacity s a with
    | none => rw [hstep] at hrun; cases hrun
    | some s1 =>
      rw [hstep] at hrun
      obtain ⟨h1, h2, h3, h4⟩ := exhausted_trans verify capacity s s1 hex
        (trans_of_stepWith verify capacity s s1 a hstep)
      obtain ⟨g1, g2, g3, g4⟩ := ih s1 s' h1 hrun
      exact ⟨g1, g2.trans h2, g3.trans h3, g4.trans h4⟩

theorem no_match_of_reachable (cfg : Config) (s : State) (hr : Reachable cfg s)
    (hno : ∀ k ∈ generate cfg.alphabet cfg.maxLength, cfg.jwt.isSignedWithKey k = false) :
    s.mainPc.matchReceived = false ∧ s.output = none ∧ s.crashed = false := by
  have hinv := inv_of_reachable cfg s hr
  have hout : s.output = none := by
    cases ho : s.output with
    | none => rfl
    | some p =>
      obtain ⟨k, n⟩ := p
      obtain ⟨hv, hk, -⟩ := hinv.output_ok k n ho
      rw [hno k hk] at hv
      cases hv
  have hrep : s.mainPc.reported = false := by
    rw [← hinv.output_iff, hout]
    rfl
  refine ⟨?_, hout, ?_⟩
  · cases hpc : s.mainPc with
    | report k =>
      obtain ⟨hv, hk⟩ := hinv.report_ok k hpc
      rw [hno k hk] at hv
      cases hv
    | select => rfl
    | acquire k => rfl
    | spawn k => rfl
    | closeKeys => rw [hpc] at hrep; cases hrep
    | closeDone => rw [hpc] at hrep; cases hrep
    | wait => rw [hpc] at hrep; cases hrep
    | exited => rw [hpc] at hrep; cases hrep
  · cases hc : s.crashed with
    | false => rfl
    | true =>
      have := hinv.keys_closed (hinv.crash_closed hc)
      rw [hrep] at this
      cases this

/-- C11, as stated, fails: with alphabet `xy`, `maxLength` 2 and the token `a.b.`, which no key
signs, the program reaches a state where the six keys have been generated, verified and counted
and none matched, and from there `main` stays blocked in its `select` for ever: it never returns
and it prints no result line (the program has no `not found` output at all). -/
theorem main_hangs_after_exhaustion :
    JWTFromString [97, 46, 98, 46] = .ok cfgNoMatch.jwt
      ∧ (∀ k : List Nat, cfgNoMatch.jwt.isSignedWithKey k = false)
      ∧ Reachable cfgNoMatch stateExhausted
      ∧ Exhausted stateExhausted
      ∧ stateExhausted.numberOfTestedKeys = 6
      ∧ ∀ (as : List Action) (s' : State), run cfgNoMatch stateExhausted as = some s' →
          s'.mainPc = .select ∧ s'.output = none ∧ s'.numberOfTestedKeys = 6 := by
  have hex : Exhausted stateExhausted := by
    refine ⟨rfl, rfl, ?_⟩
    decide
  refine ⟨rfl, tokenNoTag_rejects, ⟨sequentialSix, reachable_stateExhausted⟩, hex, rfl, ?_⟩
  intro as s' hrun
  obtain ⟨h1, h2, h3, -⟩ := exhausted_runWith _ _ as _ _ hex hrun
  exact ⟨h1.2.1, h2, h3⟩

/-- C11, amended. When no key of the key space matches, `main` never receives a match, never
prints a result line and never returns, and no goroutine panics; once the key space is exhausted
(all keys generated, every task and counter goroutine returned) `main` stays blocked in its
`select` in every later state, with the counter unchanged. There is no `not found` report. -/
theorem main_never_returns_without_match (cfg : Config) (s : State)
    (hno : ∀ k ∈ generate cfg.alphabet cfg.maxLength, cfg.jwt.isSignedWithKey k = false)
    (hr : Reachable cfg s) :
    s.mainPc.matchReceived = false ∧ s.mainPc ≠ .exited ∧ s.output = none ∧ s.crashed = false
      ∧ (Exhausted s → ∀ (as : List Action) (s' : State), run cfg s as = some s' →
          Exhausted s' ∧ s'.output = none
            ∧ s'.numberOfTestedKeys = s.numberOfTestedKeys) := by
  obtain ⟨h1, h2, h3⟩ := no_match_of_reachable cfg s hr hno
  refine ⟨h1, ?_, h2, h3, ?_⟩
  · intro hpc
    rw [hpc] at h1
    cases h1
  · intro hex as s' hrun
    obtain ⟨g1, g2, g3, -⟩ := exhausted_runWith _ _ as _ _ hex hrun
    exact ⟨g1, g2.trans h2, g3⟩

theorem main_never_returns_without_match_witness :
    (∀ k ∈ generate cfgNoMatch.alphabet cfgNoMatch.maxLength,
        cfgNoMatch.jwt.isSignedWithKey k = false)
      ∧ Reachable cfgNoMatch stateExhausted
      ∧ (stateExhausted.mainPc.matchReceived = false ∧ stateExhausted.mainPc ≠ .exited
        ∧ stateExhausted.output = none ∧ stateExhausted.crashed = false
        ∧ (Exhausted stateExhausted → ∀ (as : List Action) (s' : State),
            run cfgNoMatch stateExhausted as = some s' →
            Exhausted s' ∧ s'.output = none
              ∧ s'.numberOfTestedKeys = stateExhausted.numberOfTestedKeys)) :=
  ⟨fun k _ => tokenNoTag_rejects k, ⟨sequentialSix, reachable_stateExhausted⟩,
    main_never_returns_without_match cfgNoMatch stateExhausted (fun k _ => tokenNoTag_rejects k)
      ⟨sequentialSix, reachable_stateExhausted⟩⟩

theorem counter_le_verified (verify : List Nat → Bool) (capacity : Nat)
    (keys : List (List Nat)) (s : State) (hinv : Inv verify capacity keys s) :
    s.numberOfTestedKeys ≤ verifiedCount s ∧ verifiedCount s ≤ s.tasks.length := by
  refine ⟨?_, List.countP_le_length _⟩
  rw [hinv.counter_eq]
  apply List.countP_mono_left
  intro t ht hc
  have h := hinv.inc_pc t ht
  cases hpc : t.pc with
  | verify =>
    have hn : t.inc = .notSpawned := h.mpr (by rw [hpc]; rfl)
    rw [hn] at hc
    cases hc
  | sendResult => rfl
  | spawnInc => rfl
  | release => rfl
  | wgDone => rfl
  | finished => rfl

theorem counter_trans (verify : List Nat → Bool) (capacity : Nat) (s s' : State)
    (h : Trans verify capacity s s') :
    s'.numberOfTestedKeys = s.numberOfTestedKeys ∨
      ∃ (i : Nat) (t : Task), s.tasks[i]? = some t ∧ t.inc = .increment
        ∧ s'.numberOfTestedKeys = s.numberOfTestedKeys + 1 := by
  cases h with
  | incIncrement i t ht htinc => exact Or.inr ⟨i, t, ht, htinc, rfl⟩
  | recvKey key rest hpc hclosed hpend => exact Or.inl rfl
  | recvResult i t hpc ht htpc => exact Or.inl rfl
  | acquire key hpc hfree => exact Or.inl rfl
  | spawn key hpc => exact Or.inl rfl
  | report key hpc => exact Or.inl rfl
  | closeKeys hpc => exact Or.inl rfl
  | closeDone hpc => exact Or.inl rfl
  | exit hpc hwg => exact Or.inl rfl
  | genPanic key rest hclosed hpend => exact Or.inl rfl
  | verifyYes i t ht htpc hv => exact Or.inl rfl
  | verifyNo i t ht htpc hv => exact Or.inl rfl
  | spawnInc i t ht htpc => exact Or.inl rfl
  | release i t ht htpc hslots => exact Or.inl rfl
  | releaseClosed i t ht htpc hslots hclosed => exact Or.inl rfl
  | wgDone i t ht htpc hwg => exact Or.inl rfl
  | wgPanic i t ht htpc hwg => exact Or.inl rfl
  | incLock i t ht htinc hlock => exact Or.inl rfl
  | incUnlock i t ht htinc => exact Or.inl rfl
  | tickLock hidle hlock => exact Or.inl rfl
  | tickPrint hheld => exact Or.inl rfl

theorem match_phase_trans (verify : List Nat → Bool) (capacity : Nat) (s s' : State)
    (h : Trans verify capacity s s') (hm : s.mainPc.matchReceived = true) :
    s'.mainPc.matchReceived = true ∧ s'.pending = s.pending
      ∧ s'.tasks.length = s.tasks.length := by
  cases h with
  | recvKey key rest hpc hclosed hpend => rw [hpc] at hm; cases hm
  | acquire key hpc hfree => rw [hpc] at hm; cases hm
  | spawn key hpc => rw [hpc] at hm; cases hm
  | recvResult i t hpc ht htpc => rw [hpc] at hm; cases hm
  | report key hpc => exact ⟨rfl, rfl, rfl⟩
  | closeKeys hpc => exact ⟨rfl, rfl, rfl⟩
  | closeDone hpc => exact ⟨rfl, rfl, rfl⟩
  | exit hpc hwg => exact ⟨rfl, rfl, rfl⟩
  | genPanic key rest hclosed hpend => exact ⟨hm, rfl, rfl⟩
  | verifyYes i t ht htpc hv => exact ⟨hm, rfl, by simp⟩
  | verifyNo i t ht htpc hv => exact ⟨hm, rfl, by simp⟩
  | spawnInc i t ht htpc => exact ⟨hm, rfl, by simp⟩
  | release i t ht htpc hslots => exact ⟨hm, rfl, by simp⟩
  | releaseClosed i t ht htpc hslots hclosed => exact ⟨hm, rfl, by simp⟩
  | wgDone i t ht htpc hwg => exact ⟨hm, rfl, by simp⟩
  | wgPanic i t ht htpc hwg => exact ⟨hm, rfl, rfl⟩
  | incLock i t ht htinc hlock => exact ⟨hm, rfl, by simp⟩
  | incIncrement i t ht htinc => exact ⟨hm, rfl, by simp⟩
  | incUnlock i t ht htinc => exact ⟨hm, rfl, by simp⟩
  | tickLock hidle hlock => exact ⟨hm, rfl, rfl⟩
  | tickPrint hheld => exact ⟨hm, rfl, rfl⟩

theorem exited_trans (verify : List Nat → Bool) (capacity : Nat) (s s' : State)
    (h : Trans verify capacity s s') (hne : s.mainPc ≠ .exited) (he : s'.mainPc = .exited) :
    s'.wg = 0 := by
  cases h with
  | exit hpc hwg => exact hwg
  | recvKey key rest hpc hclosed hpend => cases he
  | acquire key hpc hfree => cases he
  | spawn key hpc => cases he
  | recvResult i t hpc ht htpc => cases he
  | report key hpc => cases he
  | closeKeys hpc => cases he
  | closeDone hpc => cases he
  | genPanic key rest hclosed hpend => exact absurd he hne
  | verifyYes i t ht htpc hv => exact absurd he hne
  | verifyNo i t ht htpc hv => exact absurd he hne
  | spawnInc i t ht htpc => exact absurd he hne
  | release i t ht htpc hslots => exact absurd he hne
  | releaseClosed i t ht htpc hslots hclosed => exact absurd he hne
  | wgDone i t ht htpc hwg => exact absurd he hne
  | wgPanic i t ht htpc hwg => exact absurd he hne
  | incLock i t ht htinc hlock => exact absurd he hne
  | incIncrement i t ht htinc => exact absurd he hne
  | incUnlock i t ht htinc => exact absurd he hne
  | tickLock hidle hlock => exact absurd he hne
  | tickPrint hheld => exact absurd he hne

theorem exited_runWith (verify : List Nat → Bool) (capacity : Nat) (as : List Action) :
    ∀ s s' : State, (s.mainPc = .exited → s.wg = 0) →
      runWith verify capacity s as = some s' → s'.mainPc = .exited → s'.wg = 0 := by
  induction as with
  | nil =>
    intro s s' h0 hrun
    simp only [runWith, Option.some.injEq] at hrun
    rw [← hrun]
    exact h0
  | cons a as ih =>
    intro s s' _ hrun
    rw [runWith] at hrun
    cases hstep : stepWith verify capacity s a with
    | none => rw [hstep] at hrun; cases hrun
    | some s1 =>
      rw [hstep] at hrun
      exact ih s1 s' (exited_trans verify capacity s s1
        (trans_of_stepWith verify capacity s s1 a hstep)
        (not_over_of_stepWith verify capacity s s1 a hstep).2) hrun

/-- C12. In every reachable state of `main`, the number of verification tasks started that
have not yet released their admission slot is at most the capacity `NumCPU * 2` of `done`: the
elements buffered in `done` are exactly one per such task, plus one while `main` has acquired a
slot for a task it is about to start, and never more than the capacity. -/
theorem inFlight_le_capacity (cfg : Config) (s : State) (hr : Reachable cfg s) :
    inFlight s ≤ cfg.numCPU * 2 ∧ s.slots = inFlight s + s.mainPc.slotTaken
      ∧ s.slots ≤ cfg.numCPU * 2 := by
  have hinv := inv_of_reachable cfg s hr
  have h1 := hinv.slots_eq
  have h2 := hinv.slots_le
  exact ⟨by omega, h1, h2⟩

theorem inFlight_le_capacity_witness :
    Reachable cfgBa stateBaMatch
      ∧ (inFlight stateBaMatch ≤ cfgBa.numCPU * 2
        ∧ stateBaMatch.slots = inFlight stateBaMatch + stateBaMatch.mainPc.slotTaken
        ∧ stateBaMatch.slots ≤ cfgBa.numCPU * 2) :=
  ⟨⟨sequentialBa, reachable_stateBaMatch⟩,
    inFlight_le_capacity cfgBa stateBaMatch ⟨sequentialBa, reachable_stateBaMatch⟩⟩

/-- C13 fails on the code. In the scenario with alphabet `ab`, `maxLength` 3 and secret `ba`,
after the sequential dispatch `main` prints the result and closes `keys` while the generator is
sending `bb`, and the send of the generator on the closed channel then panics. In general, in a
running program whose channel `keys` is closed while the generator still has a key to send, the
step of the generator is the panic. -/
theorem generator_panics_after_match :
    Reachable cfgBa stateBaMatch
      ∧ step cfgBa stateBaMatch .main
          = some { stateBaMatch with output := some ([98, 97], 4), mainPc := .closeKeys }
      ∧ step cfgBa { stateBaMatch with output := some ([98, 97], 4), mainPc := .closeKeys } .main
          = some { stateBaMatch with output := some ([98, 97], 4), keysClosed := true,
                                     mainPc := .closeDone }
      ∧ ({ stateBaMatch with output := some ([98, 97], 4), keysClosed := true,
                             mainPc := .closeDone } : State).pending.head? = some [98, 98]
      ∧ step cfgBa { stateBaMatch with output := some ([98, 97], 4), keysClosed := true,
                                       mainPc := .closeDone } .generator
          = some { stateBaMatch with output := some ([98, 97], 4), keysClosed := true,
                                     mainPc := .closeDone, crashed := true }
      ∧ ∀ (cfg : Config) (s : State), s.crashed = false → s.mainPc ≠ .exited →
          s.keysClosed = true → s.pending ≠ [] →
          step cfg s .generator = some { s with crashed := true } := by
  refine ⟨⟨sequentialBa, reachable_stateBaMatch⟩, rfl, rfl, rfl, rfl, ?_⟩
  intro cfg s hc hm hk hp
  unfold step stepWith
  have hover : ¬ (s.crashed = true ∨ s.mainPc = .exited) := by
    rw [hc]
    simp [hm]
  rw [if_neg hover]
  cases hpend : s.pending with
  | nil => exact absurd hpend hp
  | cons key rest => simp [hk]

/-- C14, as stated, fails: in the sequential-dispatch run of the scenario with alphabet `ab`,
`maxLength` 3 and secret `ba`, the five keys `a, b, aa, ab, ba` have been verified when `main`
prints the result, and the total it prints is 4. -/
theorem reported_total_is_four :
    tokenBa.signature = hmacSHA256 [98, 97] tokenBa.signedContent
      ∧ run cfgBa (init cfgBa) (sequentialBa ++ [.main])
          = some { stateBaMatch with output := some ([98, 97], 4), mainPc := .closeKeys }
      ∧ stateBaMatch.tasks.map (·.key) = [[97], [98], [97, 97], [97, 98], [98, 97]]
      ∧ verifiedCount stateBaMatch = 5 := by
  refine ⟨tokenBa_signed, ?_, rfl, by decide⟩
  exact runWith_append _ _ sequentialBa [.main] _ stateBaMatch _ reachable_stateBaMatch rfl

/-- C14, amended. When `main`, having received the match `k`, prints the result line, the
total it prints is the value of `numberOfTestedKeys` at that moment; `k` is a key accepted by
`isSignedWithKey`; and the total is at most the number of candidates whose verification has
completed by then, which is at most the number of candidates dispatched. (It can be smaller:
the counter is updated by separate goroutines, and the one of the matching task is started only
after `main` has received the match.) -/
theorem reported_total_le_verified (cfg : Config) (s s' : State) (k : List Nat)
    (hr : Reachable cfg s) (hpc : s.mainPc = .report k) (hstep : step cfg s .main = some s') :
    s'.output = some (k, s.numberOfTestedKeys) ∧ cfg.jwt.isSignedWithKey k = true
      ∧ s.numberOfTestedKeys ≤ verifiedCount s ∧ verifiedCount s ≤ s.tasks.length := by
  have hinv := inv_of_reachable cfg s hr
  obtain ⟨h1, h2⟩ := counter_le_verified _ _ _ s hinv
  refine ⟨?_, (hinv.report_ok k hpc).1, h1, h2⟩
  unfold step stepWith at hstep
  split at hstep
  · cases hstep
  · simp only [stepMain, hpc, Option.some.injEq] at hstep
    rw [← hstep]

theorem reported_total_le_verified_witness :
    Reachable cfgBa stateBaMatch ∧ stateBaMatch.mainPc = .report [98, 97]
      ∧ step cfgBa stateBaMatch .main
          = some { stateBaMatch with output := some ([98, 97], 4), mainPc := .closeKeys }
      ∧ (({ stateBaMatch with output := some ([98, 97], 4), mainPc := .closeKeys } : State).output
            = some ([98, 97], stateBaMatch.numberOfTestedKeys)
        ∧ cfgBa.jwt.isSignedWithKey [98, 97] = true
        ∧ stateBaMatch.numberOfTestedKeys ≤ verifiedCount stateBaMatch
        ∧ verifiedCount stateBaMatch ≤ stateBaMatch.tasks.length) :=
  ⟨⟨sequentialBa, reachable_stateBaMatch⟩, rfl, rfl,
    reported_total_le_verified cfgBa stateBaMatch _ [98, 97]
      ⟨sequentialBa, reachable_stateBaMatch⟩ rfl rfl⟩

/-- C15, as stated, fails: in the scenario with alphabet `ab`, `maxLength` 3 and secret `ba`,
`main` dispatches the five keys `a, b, aa, ab, ba`, all five are verified and their tasks
finish, and `main` returns from `wg.Wait()` while the counter goroutine of the task of `ba`,
which `wg` does not cover, stands before `lock.Lock()`: the program ends with
`numberOfTestedKeys` equal to 4, no further step exists, and that task has never incremented
the counter. -/
theorem counter_misses_task_at_exit :
    run cfgBa (init cfgBa)
        (sequentialBa ++ [.main, .main, .main, .task 4, .task 4, .task 4, .main])
      = some stateBaExited
      ∧ stateBaExited.mainPc = .exited
      ∧ stateBaExited.tasks.map (·.key) = [[97], [98], [97, 97], [97, 98], [98, 97]]
      ∧ (∀ t ∈ stateBaExited.tasks, t.pc = .finished)
      ∧ stateBaExited.tasks[4]? = some ⟨[98, 97], .finished, .lock⟩
      ∧ stateBaExited.numberOfTestedKeys = 4
      ∧ stateBaExited.tasks.countP (fun t => t.inc.counted) = 4
      ∧ ∀ a : Action, step cfgBa stateBaExited a = none := by
  refine ⟨?_, rfl, rfl, by decide, rfl, rfl, by decide, ?_⟩
  · exact runWith_append _ _ sequentialBa _ _ stateBaMatch _ reachable_stateBaMatch rfl
  · intro a
    unfold step stepWith
    exact if_pos (Or.inr rfl)

/-- C15, amended. A task increments `numberOfTestedKeys` at most once, and only through the
counter goroutine it starts after its verification, which nothing waits for. In every reachable
state of `main`: `numberOfTestedKeys` is the number of tasks whose counter goroutine has
executed its `numberOfTestedKeys++`; a task has a counter goroutine exactly when it is past its
`go` statement, which it reaches whether or not its key matched; a counter goroutine that
stands at the increment holds the lock; the counter never exceeds the number of tasks
dispatched; and a step of the program leaves the counter unchanged or is the increment of one
such goroutine and adds 1. -/
theorem counter_counts_tasks_at_most_once (cfg : Config) (s : State) (hr : Reachable cfg s) :
    s.numberOfTestedKeys = s.tasks.countP (fun t => t.inc.counted)
      ∧ (∀ t ∈ s.tasks, (t.inc = .notSpawned ↔ t.pc.beforeInc = true))
      ∧ (∀ i t, s.tasks[i]? = some t → t.inc = .increment →
          s.lock = some (.incrementer i))
      ∧ s.numberOfTestedKeys ≤ s.tasks.length
      ∧ ∀ (a : Action) (s' : State), step cfg s a = some s' →
          s.numberOfTestedKeys ≤ s'.numberOfTestedKeys
            ∧ (s'.numberOfTestedKeys = s.numberOfTestedKeys
              ∨ ∃ (i : Nat) (t : Task), s.tasks[i]? = some t ∧ t.inc = .increment
                  ∧ s.lock = some (.incrementer i)
                  ∧ s'.numberOfTestedKeys = s.numberOfTestedKeys + 1) := by
  have hinv := inv_of_reachable cfg s hr
  obtain ⟨h1, h2⟩ := counter_le_verified _ _ _ s hinv
  refine ⟨hinv.counter_eq, hinv.inc_pc, fun i t ht hi => hinv.lock_task i t ht (Or.inl hi),
    Nat.le_trans h1 h2, ?_⟩
  intro a s' hstep
  rcases counter_trans _ _ s s' (trans_of_stepWith _ _ s s' a hstep) with h | ⟨i, t, ht, hi, h⟩
  · exact ⟨by omega, Or.inl h⟩
  · exact ⟨by omega, Or.inr ⟨i, t, ht, hi, hinv.lock_task i t ht (Or.inl hi), h⟩⟩

theorem counter_counts_tasks_at_most_once_witness :
    Reachable cfgBa stateBaMatch
      ∧ (stateBaMatch.numberOfTestedKeys = stateBaMatch.tasks.countP (fun t => t.inc.counted)
        ∧ (∀ t ∈ stateBaMatch.tasks, (t.inc = .notSpawned ↔ t.pc.beforeInc = true))
        ∧ (∀ i t, stateBaMatch.tasks[i]? = some t → t.inc = .increment →
            stateBaMatch.lock = some (.incrementer i))
        ∧ stateBaMatch.numberOfTestedKeys ≤ stateBaMatch.tasks.length
        ∧ ∀ (a : Action) (s' : State), step cfgBa stateBaMatch a = some s' →
            stateBaMatch.numberOfTestedKeys ≤ s'.numberOfTestedKeys
              ∧ (s'.numberOfTestedKeys = stateBaMatch.numberOfTestedKeys
                ∨ ∃ (i : Nat) (t : Task), stateBaMatch.tasks[i]? = some t ∧ t.inc = .increment
                    ∧ stateBaMatch.lock = some (.incrementer i)
                    ∧ s'.numberOfTestedKeys = stateBaMatch.numberOfTestedKeys + 1)) :=
  ⟨⟨sequentialBa, reachable_stateBaMatch⟩,
    counter_counts_tasks_at_most_once cfgBa stateBaMatch ⟨sequentialBa, reachable_stateBaMatch⟩⟩

/-- C16. In every reachable state of `main`: once `main` has received a match, every further
step leaves it past the `select`, takes no key from the generator and starts no task; and when
`main` has returned, the `WaitGroup` counter is zero and every task admitted has finished. -/
theorem no_admission_after_match (cfg : Config) (s : State) (hr : Reachable cfg s) :
    (s.mainPc.matchReceived = true → ∀ (a : Action) (s' : State), step cfg s a = some s' →
        s'.mainPc.matchReceived = true ∧ s'.pending = s.pending
          ∧ s'.tasks.length = s.tasks.length)
      ∧ (s.mainPc = .exited →
          s.wg = 0 ∧ (∀ t ∈ s.tasks, t.pc = .finished)
            ∧ s.tasks.countP (fun t => t.pc == .finished) = s.tasks.length) := by
  have hinv := inv_of_reachable cfg s hr
  refine ⟨?_, ?_⟩
  · intro hm a s' hstep
    exact match_phase_trans _ _ s s' (trans_of_stepWith _ _ s s' a hstep) hm
  · intro he
    obtain ⟨as, hrun⟩ := hr
    have hwg : s.wg = 0 := exited_runWith _ _ as _ s (fun h => by cases h) hrun he
    have hcount := hinv.wg_eq
    rw [hwg] at hcount
    have hall : ∀ t ∈ s.tasks, t.pc = .finished := by
      intro t ht
      by_contra hne
      have hpos : 0 < s.tasks.countP fun t => t.pc != .finished :=
        List.countP_pos_iff.mpr ⟨t, ht, by simpa using hne⟩
      omega
    refine ⟨hwg, hall, ?_⟩
    rw [List.countP_eq_length]
    intro t ht
    simp [hall t ht]

theorem no_admission_after_match_witness :
    Reachable cfgBa stateBaMatch
      ∧ ((stateBaMatch.mainPc.matchReceived = true →
          ∀ (a : Action) (s' : State), step cfgBa stateBaMatch a = some s' →
            s'.mainPc.matchReceived = true ∧ s'.pending = stateBaMatch.pending
              ∧ s'.tasks.length = stateBaMatch.tasks.length)
        ∧ (stateBaMatch.mainPc = .exited →
            stateBaMatch.wg = 0 ∧ (∀ t ∈ stateBaMatch.tasks, t.pc = .finished)
              ∧ stateBaMatch.tasks.countP (fun t => t.pc == .finished)
                = stateBaMatch.tasks.length)) :=
  ⟨⟨sequentialBa, reachable_stateBaMatch⟩,
    no_admission_after_match cfgBa stateBaMatch ⟨sequentialBa, reachable_stateBaMatch⟩⟩

end JwtCracker
